import Mathlib

/-!
# pebble-lru: recency bookkeeping of the LRU cache in front of a pebble store

Shallow embedding of `lru.go`.

* A Go `[]byte` key or value is a list of bytes.
* `container/list` is embedded as the sequence of its elements, front first.
  An element pointer `*list.Element` is the address of the element; the
  allocation done by `PushFront` takes the next unused address.
* `pebble.DB` is an external collaborator.  It is embedded as its durable
  contents, the table layout it currently reports and a fault plan saying
  which operations fail.
* `log.Fatal` ends the process: an operation either returns or exits.
* A list element keeps the slice the caller passed (`listEl{val: val}`), while the
  lookup map is keyed by a string copy of it.  Within a call the two agree; a
  caller that later writes into that buffer changes the key the element reads.
  That write is the step `callerWrites`, made between calls.
-/

namespace LruCache

/-- A key is a Go byte slice. -/
abbrev Key := List UInt8

/-- A stored value is a Go byte slice. -/
abbrev Value := List UInt8

/-- Errors that reach the cache: `pebble.ErrNotFound`, the package variable
`nilError`, and any other failure reported by the store. -/
inductive Error where
  | ErrNotFound
  | nilError
  | storeFailure (code : Nat)
  deriving DecidableEq, Repr

/-- One entry of `pebble.DB.SSTables()`; only the `Size` field (uint64) is read. -/
structure TableInfo where
  Size : Nat
  deriving DecidableEq, Repr

/-- The `io.Closer` handed out by `pebble.DB.Get`. -/
structure Closer where
  Close : Option Error

/-- Modelled from the spec: the persistence collaborator (`pebble.DB`), which is
not part of the repository.  Section 6 of the spec gives its contract:
`get(key) -> (value, found|not-found)`, `set -> ok|error`, `delete -> ok|error`
and `occupiedSize`.  `kv` is the durable content, `sstables` the layout that
`SSTables()` reports now (it changes by flushes and compactions, not by the
calls themselves), and the four `...Err` fields say which calls fail. -/
structure DB where
  kv : Key → Option Value
  sstables : List (List TableInfo)
  getErr : Key → Option Error
  closeErr : Key → Option Error
  setErr : Key → Option Error
  deleteErr : Key → Option Error

/-- Modelled from the spec: `db.Get(key)` returns `(val, closer, err)`; an absent
key gives `pebble.ErrNotFound`, a failing read gives the store error. -/
def DB.Get (db : DB) (key : Key) : Option Value × Closer × Option Error :=
  match db.getErr key with
  | some e => (none, ⟨none⟩, some e)
  | none =>
    match db.kv key with
    | none => (none, ⟨none⟩, some Error.ErrNotFound)
    | some v => (some v, ⟨db.closeErr key⟩, none)

/-- Modelled from the spec: `db.Set(key, val, pebble.Sync)`; a failing write
reports the error and leaves the content as it was. -/
def DB.Set (db : DB) (key : Key) (val : Value) : Option Error × DB :=
  match db.setErr key with
  | some e => (some e, db)
  | none => (none, { db with kv := Function.update db.kv key (some val) })

/-- Modelled from the spec: `db.Delete(key, pebble.Sync)`; deleting an absent key
succeeds, a failing delete reports the error and leaves the content as it was. -/
def DB.Delete (db : DB) (key : Key) : Option Error × DB :=
  match db.deleteErr key with
  | some e => (some e, db)
  | none => (none, { db with kv := Function.update db.kv key none })

/-- Modelled from the spec: `db.SSTables()`, the tables of every level. -/
def DB.SSTables (db : DB) : List (List TableInfo) := db.sstables

/-- The wrapper stored in the list (`type listEl struct { val interface{} }`).
`val` is the caller's slice; the field holds the bytes that slice reads now. -/
structure listEl where
  val : Key
  deriving DecidableEq, Repr

/-- A `list.Element`: its address and its `Value`. -/
structure Element where
  addr : Nat
  Value : listEl
  deriving DecidableEq, Repr

namespace GoList

/-- `l.PushFront(v)`: a new element, at address `addr`, becomes the front. -/
def PushFront (l : List Element) (addr : Nat) (v : listEl) : List Element :=
  ⟨addr, v⟩ :: l

/-- `l.MoveToFront(e)`: nothing happens when `e` is not an element of `l`. -/
def MoveToFront (l : List Element) (e : Nat) : List Element :=
  match l.find? (fun x => x.addr == e) with
  | none => l
  | some x => x :: l.filter (fun y => y.addr != e)

/-- `l.Remove(e)`: nothing happens when `e` is not an element of `l`. -/
def Remove (l : List Element) (e : Nat) : List Element :=
  l.filter (fun y => y.addr != e)

end GoList

/-- The `Cache` struct.  `nextAddr` is the next unused element address (the Go
heap); the lock is not part of the sequential embedding. -/
structure Cache where
  MaxSizeInBytes : Nat
  hitCounter : Int
  RemoveThisManyItemsFromTheCache : Int
  FileLocation : String
  listOfEvictList : Key → Option Nat
  evictList : List Element
  nextAddr : Nat

/-- The keys of the recency list, front (hottest) to back (coldest). -/
def Cache.keys (c : Cache) : List Key := c.evictList.map (fun e => e.Value.val)

/-- `NewCache`. -/
def NewCache (maxSizeInBytes : Nat) (removeThisManyItemsFromTheCache : Int)
    (fileLocation : String) : Cache × Option Error :=
  ({ MaxSizeInBytes := maxSizeInBytes
     hitCounter := 0
     RemoveThisManyItemsFromTheCache := removeThisManyItemsFromTheCache
     FileLocation := fileLocation
     listOfEvictList := fun _ => none
     evictList := []
     nextAddr := 0 }, none)

/-- `moveItemToFront`.  The lookup uses the string copy `string(val)`; a new
element keeps the slice `val` itself, so its bytes follow later writes of the
caller into that buffer (`callerWrites`). -/
def moveItemToFront (c : Cache) (val : Key) : Cache :=
  match c.listOfEvictList val with
  | some ent => { c with evictList := GoList.MoveToFront c.evictList ent }
  | none =>
    let ent : listEl := ⟨val⟩
    let newEntry := c.nextAddr
    { c with
      evictList := GoList.PushFront c.evictList newEntry ent
      listOfEvictList := Function.update c.listOfEvictList val (some newEntry)
      nextAddr := c.nextAddr + 1 }

/-- `Get`: the result `(value, err)` and the cache afterwards.  The store is only
read. -/
def Get (c : Cache) (key : Key) (db : DB) : (Option Value × Option Error) × Cache :=
  match db.Get key with
  | (_, _, some err) => ((none, some err), c)
  | (val, closer, none) =>
    match closer.Close with
    | some err => ((none, some err), c)
    | none =>
      match val with
      | none => ((none, some Error.nilError), c)
      | some v => ((some v, none), moveItemToFront c key)

/-- `getTableSize`: the sizes of all tables of all levels, added as uint64. -/
def getTableSize (db : DB) : Nat :=
  db.SSTables.foldl
    (fun size table => table.foldl (fun size info => (size + info.Size) % 2 ^ 64) size) 0

/-- How a call ends: it returns its `error` result, or `log.Fatal` ends the
process. -/
inductive Exit where
  | returned (err : Option Error)
  | fatal (err : Error)
  deriving DecidableEq, Repr

/-- The staging loop of `evictFromCache`, over the elements from `Back()` along
`Prev()`; the state is `valuesRemoved`, `valsToRemove`, `elementsToRemove` and
the lookup map. -/
def evictStage (K : Int) :
    List Element → Int → List Key → List Nat → (Key → Option Nat) →
      Int × List Key × List Nat × (Key → Option Nat)
  | [], valuesRemoved, valsToRemove, elementsToRemove, m =>
    (valuesRemoved, valsToRemove, elementsToRemove, m)
  | e :: rest, valuesRemoved, valsToRemove, elementsToRemove, m =>
    let val := e.Value.val
    let valsToRemove := valsToRemove ++ [val]
    let elementsToRemove := elementsToRemove ++ [e.addr]
    let m := Function.update m val none
    let valuesRemoved := valuesRemoved + 1
    if valuesRemoved ≥ K then (valuesRemoved, valsToRemove, elementsToRemove, m)
    else evictStage K rest valuesRemoved valsToRemove elementsToRemove m

/-- The delete loop of `evictFromCache`: the first failing delete is fatal. -/
def evictDelete : List Key → DB → Exit × DB
  | [], db => (Exit.returned none, db)
  | val :: rest, db =>
    match db.Delete val with
    | (some err, db1) => (Exit.fatal err, db1)
    | (none, db1) => evictDelete rest db1

/-- `evictFromCache`. -/
def evictFromCache (c : Cache) (db : DB) : Exit × Cache × DB :=
  let (_, valsToRemove, elementsToRemove, m) :=
    evictStage c.RemoveThisManyItemsFromTheCache c.evictList.reverse 0 [] []
      c.listOfEvictList
  let c1 : Cache :=
    { c with
      listOfEvictList := m
      evictList := elementsToRemove.foldl GoList.Remove c.evictList }
  let (r, db1) := evictDelete valsToRemove db
  (r, c1, db1)

/-- Go `int` addition result, kept in the 64-bit two's complement range. -/
def wrapInt (x : Int) : Int := (x + 2 ^ 63) % 2 ^ 64 - 2 ^ 63

/-- `Set`.  The test `c.hitCounter%1 == 0` is kept as written; `write` is the
final `db.Set` and the return of its error. -/
def Set (c : Cache) (key : Key) (val : Value) (db : DB) : Exit × Cache × DB :=
  let c1 := moveItemToFront c key
  let c2 : Cache := { c1 with hitCounter := wrapInt (c1.hitCounter + 1) }
  let write (c3 : Cache) (db3 : DB) : Exit × Cache × DB :=
    match db3.Set key val with
    | (some err, db4) => (Exit.returned (some err), c3, db4)
    | (none, db4) => (Exit.returned none, c3, db4)
  if c2.hitCounter % 1 = 0 then
    let tableSize := getTableSize db
    if tableSize > c2.MaxSizeInBytes then
      match evictFromCache c2 db with
      | (Exit.fatal err, c3, db3) => (Exit.fatal err, c3, db3)
      | (Exit.returned (some err), c3, db3) => (Exit.fatal err, c3, db3)
      | (Exit.returned none, c3, db3) => write c3 db3
    else write c2 db
  else write c2 db

/-- A run of touches, in the order given, without writes into key buffers in
between. -/
def touches (c : Cache) (ks : List Key) : Cache := ks.foldl moveItemToFront c

/-- The consistency of list and lookup map: element addresses and keys are not
repeated, every element is the one its key is mapped to, every map entry points
at an element of the list with that key, and unused addresses are unused. -/
structure Inv (c : Cache) : Prop where
  addr_nodup : (c.evictList.map Element.addr).Nodup
  keys_nodup : c.keys.Nodup
  map_of_mem : ∀ e ∈ c.evictList, c.listOfEvictList e.Value.val = some e.addr
  mem_of_map : ∀ k a, c.listOfEvictList k = some a → (⟨a, ⟨k⟩⟩ : Element) ∈ c.evictList
  fresh : ∀ e ∈ c.evictList, e.addr < c.nextAddr

/-- The number of elements one run of `evictFromCache` stages: the loop body runs
at least once on a non-empty list and stops when `valuesRemoved` reaches the
batch size. -/
def evictCount (c : Cache) : Nat :=
  min (max c.RemoveThisManyItemsFromTheCache 1).toNat c.evictList.length

/-- The elements one run of `evictFromCache` stages, coldest first. -/
def staged (c : Cache) : List Element := c.evictList.reverse.take (evictCount c)

/-- The cache states that calls of `Get`, `Set` and `evictFromCache` lead to from
`NewCache`, whatever the store is and does at each call, when the caller writes
into no key buffer it has passed (no `callerWrites` step). -/
inductive Reachable : Cache → Prop where
  | init (m : Nat) (K : Int) (loc : String) : Reachable (NewCache m K loc).1
  | get (c : Cache) (key : Key) (db : DB) : Reachable c → Reachable (Get c key db).2
  | set (c : Cache) (key : Key) (val : Value) (db : DB) :
      Reachable c → Reachable (Set c key val db).2.1
  | evict (c : Cache) (db : DB) : Reachable c → Reachable (evictFromCache c db).2.1

/-- An empty store on which every operation succeeds, reporting `tables`. -/
def DB.fresh (tables : List (List TableInfo)) : DB :=
  { kv := fun _ => none
    sstables := tables
    getErr := fun _ => none
    closeErr := fun _ => none
    setErr := fun _ => none
    deleteErr := fun _ => none }

/-- The store after a flush or compaction changed the reported layout to `tables`. -/
def DB.withTables (db : DB) (tables : List (List TableInfo)) : DB :=
  { db with sstables := tables }

/-- A store on which no operation fails. -/
def DB.NoFaults (db : DB) : Prop :=
  ∀ k, db.getErr k = none ∧ db.closeErr k = none ∧ db.setErr k = none ∧ db.deleteErr k = none

/-- The `m` keys at the back of the recency list (the coldest ones), in list
order. -/
def coldest (c : Cache) (m : Nat) : List Key := c.keys.drop (c.keys.length - m)

/-- The cache when `Set` releases the lock for the first time: the key is touched
and `hitCounter` is incremented. -/
def afterTouch (c : Cache) (key : Key) : Cache :=
  { moveItemToFront c key with
    hitCounter := wrapInt ((moveItemToFront c key).hitCounter + 1) }

/-- The rounds of the hot-key test: each round is `Set(k, v)`, made while the
store reports `tables`, followed by `Get(a)`; the results of the `Get`s are
collected.  The caller writes into no key buffer between the calls.  Nothing
follows a fatal exit. -/
def hotRun (a : Key) :
    List (Key × Value × List (List TableInfo)) → Cache → DB → List (Option Value × Option Error)
  | [], _, _ => []
  | (k, v, tables) :: rest, c, db =>
    match Set c k v (db.withTables tables) with
    | (Exit.fatal _, _, _) => []
    | (Exit.returned _, c1, db1) => (Get c1 a db1).1 :: hotRun a rest (Get c1 a db1).2 db1

/-- Whether no round of the hot-key test runs an eviction at a moment when `a` is
the only tracked key: at each `Set` the reported size is at most the ceiling or
the recency list is not `[a]`. -/
def hotSafe (a : Key) :
    List (Key × Value × List (List TableInfo)) → Cache → DB → Bool
  | [], _, _ => true
  | (k, v, tables) :: rest, c, db =>
    decide (getTableSize (db.withTables tables) ≤ c.MaxSizeInBytes ∨ c.keys ≠ [a]) &&
    match Set c k v (db.withTables tables) with
    | (Exit.fatal _, _, _) => true
    | (Exit.returned _, c1, db1) => hotSafe a rest (Get c1 a db1).2 db1

/-- How many of the keys of `known` the store holds. -/
def storedCount (db : DB) (known : List Key) : Nat :=
  (known.filter (fun k => (db.kv k).isSome)).length

/-- A run of `Set`s against a store that reports `perKey` bytes for each key of
`known` it holds at the time of the call.  The run ends at the first `Set`
that does not return nil. -/
def scenarioSets (known : List Key) (perKey : Nat) :
    List (Key × Value) → Cache → DB → Exit × Cache × DB
  | [], c, db => (Exit.returned none, c, db)
  | (k, v) :: rest, c, db =>
    match Set c k v (db.withTables [[⟨perKey * storedCount db known⟩]]) with
    | (Exit.returned none, c1, db1) => scenarioSets known perKey rest c1 db1
    | r => r

/-- The keys `"a"` to `"e"`. -/
def fiveKeys : List Key := [[97], [98], [99], [100], [101]]

/-- The scenario of the spec: ceiling 100, `K = 2`, 30 bytes per stored key, and
`Set` of `"a"` to `"e"` in that order on a new cache and an empty store. -/
def fiveKeyScenario (va vb vc vd ve : Value) : Exit × Cache × DB :=
  scenarioSets fiveKeys 30 [([97], va), ([98], vb), ([99], vc), ([100], vd), ([101], ve)]
    (NewCache 100 2 "db").1 (DB.fresh [])

/-- The same scenario stopped after the `Set` of `"d"`. -/
def fourKeyScenario (va vb vc vd : Value) : Exit × Cache × DB :=
  scenarioSets fiveKeys 30 [([97], va), ([98], vb), ([99], vc), ([100], vd)]
    (NewCache 100 2 "db").1 (DB.fresh [])

/-- A store holding `"a"`, reporting 5 bytes, on which the delete of `"a"` fails. -/
def failingDeleteStore : DB :=
  { kv := fun k => if k = [97] then some [1] else none
    sstables := [[⟨5⟩]]
    getErr := fun _ => none
    closeErr := fun _ => none
    setErr := fun _ => none
    deleteErr := fun k => if k = [97] then some (Error.storeFailure 1) else none }

/-- `RemoveSpecificItemsFromCache`: the body is `panic("oof")`.  A call that
panics is the `error` side, carrying the panic value; the `ok` side would be the
returned `error` and the cache and store afterwards. -/
def RemoveSpecificItemsFromCache (_c : Cache) (_db : DB) (_items : List Key) :
    Except String (Option Error × Cache × DB) :=
  Except.error "oof"

/-- Between two calls the caller writes `bytes` into the key buffer that the
element at address `e` holds.  The element's slice keeps its length, so only a
write of that length is seen; the lookup map, keyed by string copies, and the
store are not affected. -/
def callerWrites (c : Cache) (e : Nat) (bytes : Key) : Cache :=
  { c with
    evictList := c.evictList.map (fun x =>
      if x.addr = e ∧ x.Value.val.length = bytes.length then ⟨x.addr, ⟨bytes⟩⟩ else x) }

/-- A step of the user of the cache: `Get(key)`, `Set(key, val)` made while the
store reports `tables`, or a write into a key buffer passed earlier. -/
inductive Op where
  | get (key : Key)
  | set (key : Key) (val : Value) (tables : List (List TableInfo))
  | write (e : Nat) (bytes : Key)

/-- Whether the step is a write into a key buffer. -/
def Op.isWrite : Op → Bool
  | Op.write _ _ => true
  | _ => false

/-- A run of steps, the store being modified by the calls only.  Nothing
follows a fatal exit. -/
def runOps : List Op → Cache → DB → Cache × DB
  | [], c, db => (c, db)
  | Op.get key :: rest, c, db => runOps rest (Get c key db).2 db
  | Op.set key val tables :: rest, c, db =>
    match Set c key val (db.withTables tables) with
    | (Exit.returned _, c1, db1) => runOps rest c1 db1
    | (Exit.fatal _, c1, db1) => (c1, db1)
  | Op.write e bytes :: rest, c, db => runOps rest (callerWrites c e bytes) db

/-! ## The recency list under a touch -/

theorem addr_inj {l : List Element} (h : (l.map Element.addr).Nodup) {x y : Element}
    (hx : x ∈ l) (hy : y ∈ l) (hxy : x.addr = y.addr) : x = y :=
  List.inj_on_of_nodup_map h hx hy hxy

theorem key_inj {l : List Element} (h : (l.map (fun e => e.Value.val)).Nodup) {x y : Element}
    (hx : x ∈ l) (hy : y ∈ l) (hxy : x.Value.val = y.Value.val) : x = y :=
  List.inj_on_of_nodup_map h hx hy hxy

theorem MoveToFront_of_mem {l : List Element} (h : (l.map Element.addr).Nodup) {e : Element}
    (he : e ∈ l) :
    GoList.MoveToFront l e.addr = e :: l.filter (fun y => y.addr != e.addr) := by
  unfold GoList.MoveToFront
  cases hf : l.find? (fun x => x.addr == e.addr) with
  | none =>
    have := List.find?_eq_none.mp hf e he
    simp at this
  | some x =>
    have hx : x ∈ l := List.mem_of_find?_eq_some hf
    have hp := List.find?_some hf
    have hxe : x = e := addr_inj h hx he (by simpa using hp)
    simp [hxe]

theorem keys_filter_addr {l : List Element} (ha : (l.map Element.addr).Nodup)
    (hk : (l.map (fun e => e.Value.val)).Nodup) {e : Element} (he : e ∈ l) :
    (l.filter (fun y => y.addr != e.addr)).map (fun e => e.Value.val)
      = (l.map (fun e => e.Value.val)).filter (fun k => k != e.Value.val) := by
  rw [List.filter_map]
  congr 1
  apply List.filter_congr
  intro y hy
  by_cases hxy : y = e
  · simp [hxy]
  · have h1 : y.addr ≠ e.addr := fun h => hxy (addr_inj ha hy he h)
    have h2 : y.Value.val ≠ e.Value.val := fun h => hxy (key_inj hk hy he h)
    show (y.addr != e.addr) = (y.Value.val != e.Value.val)
    rw [bne_iff_ne.mpr h1, bne_iff_ne.mpr h2]

theorem MoveToFront_perm {l : List Element} (h : (l.map Element.addr).Nodup) {e : Element}
    (he : e ∈ l) : (GoList.MoveToFront l e.addr).Perm l := by
  rw [MoveToFront_of_mem h he]
  have hl : l.Nodup := List.Nodup.of_map _ h
  have hf : l.filter (fun y => y.addr != e.addr) = l.erase e := by
    rw [List.Nodup.erase_eq_filter hl]
    apply List.filter_congr
    intro y hy
    by_cases hxy : y = e
    · simp [hxy]
    · have h1 : y.addr ≠ e.addr := fun h' => hxy (addr_inj h hy he h')
      rw [bne_iff_ne.mpr h1, bne_iff_ne.mpr hxy]
  rw [hf]
  exact (List.perm_cons_erase he).symm

theorem not_mem_keys_of_map_none {c : Cache} (h : Inv c) {k : Key}
    (hk : c.listOfEvictList k = none) : k ∉ c.keys := by
  intro hmem
  obtain ⟨e, he, hek⟩ := List.mem_map.mp hmem
  have := h.map_of_mem e he
  rw [hek, hk] at this
  cases this

theorem keys_moveItemToFront {c : Cache} (h : Inv c) (k : Key) :
    (moveItemToFront c k).keys = k :: c.keys.filter (fun x => x != k) := by
  unfold moveItemToFront
  cases hm : c.listOfEvictList k with
  | none =>
    have hk := not_mem_keys_of_map_none h hm
    have hf : c.keys.filter (fun x => x != k) = c.keys := by
      apply List.filter_eq_self.mpr
      intro x hx
      exact bne_iff_ne.mpr (fun hxk => hk (hxk ▸ hx))
    rw [hf]
    simp [Cache.keys, GoList.PushFront]
  | some a =>
    have he := h.mem_of_map k a hm
    have h1 := MoveToFront_of_mem h.addr_nodup he
    have h2 := keys_filter_addr h.addr_nodup h.keys_nodup he
    simp only [Cache.keys] at h2 ⊢
    simp only at h1
    rw [h1, List.map_cons, h2]

theorem inv_moveItemToFront {c : Cache} (h : Inv c) (k : Key) :
    Inv (moveItemToFront c k) := by
  unfold moveItemToFront
  cases hm : c.listOfEvictList k with
  | none =>
    have hk := not_mem_keys_of_map_none h hm
    refine ⟨?_, ?_, ?_, ?_, ?_⟩
    · simp only [GoList.PushFront, List.map_cons, List.nodup_cons]
      refine ⟨?_, h.addr_nodup⟩
      intro hmem
      obtain ⟨e, he, hea⟩ := List.mem_map.mp hmem
      have := h.fresh e he
      omega
    · simp only [Cache.keys, GoList.PushFront, List.map_cons, List.nodup_cons]
      exact ⟨hk, h.keys_nodup⟩
    · intro e he
      simp only [GoList.PushFront, List.mem_cons] at he
      rcases he with rfl | he
      · simp
      · have hne : e.Value.val ≠ k := fun hek => hk (hek ▸ List.mem_map_of_mem _ he)
        simp only [Function.update_noteq hne]
        exact h.map_of_mem e he
    · intro k' a hka
      simp only [GoList.PushFront, List.mem_cons]
      by_cases hkk : k' = k
      · subst hkk
        simp only [Function.update_same, Option.some.injEq] at hka
        left; rw [← hka]
      · simp only [Function.update_noteq hkk] at hka
        right; exact h.mem_of_map k' a hka
    · intro e he
      simp only [GoList.PushFront, List.mem_cons] at he
      rcases he with rfl | he
      · simp
      · have := h.fresh e he
        simp only
        omega
  | some a =>
    have he := h.mem_of_map k a hm
    have hp := MoveToFront_perm h.addr_nodup he
    simp only at hp
    refine ⟨?_, ?_, ?_, ?_, ?_⟩
    · exact ((hp.map Element.addr).nodup_iff).mpr h.addr_nodup
    · have hk : (c.evictList.map (fun e => e.Value.val)).Nodup := h.keys_nodup
      exact ((hp.map (fun e : Element => e.Value.val)).nodup_iff).mpr hk
    · intro e he'
      exact h.map_of_mem e (hp.mem_iff.mp he')
    · intro k' a' hka
      exact hp.mem_iff.mpr (h.mem_of_map k' a' hka)
    · intro e he'
      exact h.fresh e (hp.mem_iff.mp he')

theorem inv_NewCache (m : Nat) (K : Int) (loc : String) : Inv (NewCache m K loc).1 := by
  refine ⟨?_, ?_, ?_, ?_, ?_⟩ <;> simp [NewCache, Cache.keys]

theorem inv_touches {c : Cache} (h : Inv c) (ks : List Key) : Inv (touches c ks) := by
  induction ks generalizing c with
  | nil => exact h
  | cons k ks ih => exact ih (inv_moveItemToFront h k)

theorem touches_append (c : Cache) (ks : List Key) (k : Key) :
    touches c (ks ++ [k]) = moveItemToFront (touches c ks) k := by
  simp [touches, List.foldl_append]

theorem dedup_append_singleton (l : List Key) (k : Key) :
    (l ++ [k]).dedup = l.dedup.filter (fun x => x != k) ++ [k] := by
  induction l with
  | nil => simp
  | cons a l ih =>
    by_cases hal : a ∈ l
    · have h1 : a ∈ l ++ [k] := List.mem_append_left _ hal
      rw [List.cons_append, List.dedup_cons_of_mem h1, List.dedup_cons_of_mem hal, ih]
    · by_cases hak : a = k
      · subst hak
        have h1 : a ∈ l ++ [a] := by simp
        rw [List.cons_append, List.dedup_cons_of_mem h1, List.dedup_cons_of_not_mem hal, ih]
        simp
      · have h1 : a ∉ l ++ [k] := by simp [hal, hak]
        rw [List.cons_append, List.dedup_cons_of_not_mem h1, List.dedup_cons_of_not_mem hal, ih]
        simp [hak]

theorem keys_touches_NewCache (m : Nat) (K : Int) (loc : String) (ks : List Key) :
    (touches (NewCache m K loc).1 ks).keys = ks.dedup.reverse := by
  induction ks using List.reverseRecOn with
  | nil => simp [touches, NewCache, Cache.keys]
  | append_singleton ks k ih =>
    rw [touches_append, keys_moveItemToFront (inv_touches (inv_NewCache m K loc) ks), ih,
      dedup_append_singleton]
    simp [List.filter_reverse]

theorem tracked_iff_mem_keys {c : Cache} (h : Inv c) (k : Key) :
    (c.listOfEvictList k).isSome ↔ k ∈ c.keys := by
  constructor
  · intro hs
    obtain ⟨a, ha⟩ := Option.isSome_iff_exists.mp hs
    exact List.mem_map.mpr ⟨_, h.mem_of_map k a ha, rfl⟩
  · intro hk
    cases hm : c.listOfEvictList k with
    | none => exact absurd hk (not_mem_keys_of_map_none h hm)
    | some a => rfl

theorem length_moveItemToFront_tracked {c : Cache} (h : Inv c) {k : Key}
    (hk : c.listOfEvictList k ≠ none) :
    (moveItemToFront c k).evictList.length = c.evictList.length := by
  unfold moveItemToFront
  cases hm : c.listOfEvictList k with
  | none => exact absurd hm hk
  | some a =>
    have hp := MoveToFront_perm h.addr_nodup (h.mem_of_map k a hm)
    exact hp.length_eq

/-- When the caller writes into no key buffer between the touches: after any run
of touches on a new cache the recency list, front to back, is the touched keys
by last touch, most recent first, each key once; touching a tracked key moves it
to the front, keeps the other keys in their order and keeps the length of the
list. -/
theorem touches_order_by_last_touch (m : Nat) (K : Int) (loc : String) (ks : List Key)
    (k : Key) :
    (touches (NewCache m K loc).1 ks).keys = ks.dedup.reverse ∧
    (touches (NewCache m K loc).1 ks).keys.Nodup ∧
    (∀ x, x ∈ (touches (NewCache m K loc).1 ks).keys ↔ x ∈ ks) ∧
    ((touches (NewCache m K loc).1 ks).listOfEvictList k ≠ none →
      (moveItemToFront (touches (NewCache m K loc).1 ks) k).keys
          = k :: (touches (NewCache m K loc).1 ks).keys.filter (fun x => x != k) ∧
      (moveItemToFront (touches (NewCache m K loc).1 ks) k).evictList.length
          = (touches (NewCache m K loc).1 ks).evictList.length) := by
  have hinv := inv_touches (inv_NewCache m K loc) ks
  have hkeys := keys_touches_NewCache m K loc ks
  refine ⟨hkeys, hinv.keys_nodup, ?_, ?_⟩
  · intro x
    rw [hkeys]
    simp
  · intro hk
    exact ⟨keys_moveItemToFront hinv k, length_moveItemToFront_tracked hinv hk⟩

/-- An instance: touching `a`, `b`, `a`, `c` and then the tracked key `b`. -/
theorem touches_order_by_last_touch_witness :
    (touches (NewCache 100 2 "db").1 [[97], [98], [97], [99]]).keys = [[99], [97], [98]] ∧
    (moveItemToFront (touches (NewCache 100 2 "db").1 [[97], [98], [97], [99]]) [98]).keys
      = [[98], [99], [97]] ∧
    (moveItemToFront (touches (NewCache 100 2 "db").1 [[97], [98], [97], [99]])
      [98]).evictList.length = 3 := by
  have h := touches_order_by_last_touch 100 2 "db" [[97], [98], [97], [99]] [98]
  have h4 := h.2.2.2 (by decide)
  refine ⟨by decide, ?_, ?_⟩
  · rw [h4.1]; decide
  · rw [h4.2]; decide

/-- C1: the order by last touch is lost when a key buffer is used again.  A touch
of `"a"` through a buffer, a write of `"b"` into that buffer and a touch of `"b"`
(no eviction in between) leave the list `b, b`: the first element reads the
caller's buffer, the lookup map has no entry for `"b"` and a second element is
pushed.  The keys by last touch are `b, a`, each once. -/
theorem touches_reused_buffer :
    (moveItemToFront (callerWrites (moveItemToFront (NewCache 100 1 "db").1 [97]) 0 [98])
      [98]).keys = [[98], [98]] ∧
    ([[97], [98]] : List Key).dedup.reverse = [[98], [97]] ∧
    ¬ (moveItemToFront (callerWrites (moveItemToFront (NewCache 100 1 "db").1 [97]) 0 [98])
      [98]).keys.Nodup ∧
    (moveItemToFront (callerWrites (moveItemToFront (NewCache 100 1 "db").1 [97]) 0 [98])
      [98]).listOfEvictList [97] = some 0 := by
  decide

/-! ## Eviction -/

theorem evictStage_snd (K : Int) (l : List Element) :
    ∀ (vr : Int) (vs : List Key) (es : List Nat) (m : Key → Option Nat),
      (evictStage K l vr vs es m).2 =
        (vs ++ (l.take (min (max (K - vr) 1).toNat l.length)).map (fun e => e.Value.val),
         es ++ (l.take (min (max (K - vr) 1).toNat l.length)).map Element.addr,
         fun k =>
           if k ∈ (l.take (min (max (K - vr) 1).toNat l.length)).map (fun e => e.Value.val)
           then none else m k) := by
  induction l with
  | nil => intro vr vs es m; simp [evictStage]
  | cons e rest ih =>
    intro vr vs es m
    unfold evictStage
    simp only []
    split
    · rename_i hstop
      have hj : min (max (K - vr) 1).toNat (e :: rest).length = 1 := by
        simp only [List.length_cons]; omega
      rw [hj]
      simp only [List.take_succ_cons, List.take_zero, List.map_cons, List.map_nil,
        List.mem_singleton]
      refine Prod.ext rfl (Prod.ext rfl ?_)
      funext k
      by_cases hk : k = e.Value.val
      · subst hk; simp
      · simp [hk, Function.update_noteq hk]
    · rename_i hgo
      have hj : min (max (K - vr) 1).toNat (e :: rest).length
          = min (max (K - (vr + 1)) 1).toNat rest.length + 1 := by
        simp only [List.length_cons]; omega
      rw [ih, hj]
      simp only [List.take_succ_cons, List.map_cons, List.append_assoc, List.singleton_append,
        List.mem_cons]
      refine Prod.ext rfl (Prod.ext rfl ?_)
      funext k
      by_cases hk : k = e.Value.val
      · subst hk; simp
      · simp [hk, Function.update_noteq hk]

theorem foldl_Remove (es : List Nat) :
    ∀ l : List Element, es.foldl GoList.Remove l = l.filter (fun y => decide (y.addr ∉ es)) := by
  induction es with
  | nil => intro l; simp
  | cons a es ih =>
    intro l
    rw [List.foldl_cons, ih, GoList.Remove, List.filter_filter]
    apply List.filter_congr
    intro y _
    by_cases h1 : y.addr = a <;> by_cases h2 : y.addr ∈ es <;> simp [h1, h2]

theorem filter_not_mem_back {a b : List Element} (h : ((a ++ b).map Element.addr).Nodup)
    (es : List Nat) (hes : ∀ x, x ∈ es ↔ x ∈ b.map Element.addr) :
    (a ++ b).filter (fun y => decide (y.addr ∉ es)) = a := by
  rw [List.map_append] at h
  have hd := List.disjoint_of_nodup_append h
  rw [List.filter_append]
  have h1 : a.filter (fun y => decide (y.addr ∉ es)) = a := by
    apply List.filter_eq_self.mpr
    intro y hy
    have : y.addr ∉ es := fun hm => hd (List.mem_map_of_mem _ hy) ((hes _).mp hm)
    simpa using this
  have h2 : b.filter (fun y => decide (y.addr ∉ es)) = [] := by
    apply List.filter_eq_nil_iff.mpr
    intro y hy
    have : y.addr ∈ es := (hes _).mpr (List.mem_map_of_mem _ hy)
    simpa using this
  rw [h1, h2, List.append_nil]

theorem staged_eq (c : Cache) :
    staged c = (c.evictList.drop (c.evictList.length - evictCount c)).reverse := by
  unfold staged
  rw [List.take_reverse]

theorem evictFromCache_eq (c : Cache) (db : DB) (h : (c.evictList.map Element.addr).Nodup) :
    evictFromCache c db =
      ((evictDelete ((staged c).map (fun e => e.Value.val)) db).1,
       { c with
         listOfEvictList := fun k =>
           if k ∈ (staged c).map (fun e => e.Value.val) then none else c.listOfEvictList k
         evictList := c.evictList.take (c.evictList.length - evictCount c) },
       (evictDelete ((staged c).map (fun e => e.Value.val)) db).2) := by
  have hs := evictStage_snd c.RemoveThisManyItemsFromTheCache c.evictList.reverse 0 [] []
    c.listOfEvictList
  simp only [sub_zero, List.length_reverse, List.nil_append] at hs
  have hst : (evictStage c.RemoveThisManyItemsFromTheCache c.evictList.reverse 0 [] []
      c.listOfEvictList).2 =
      ((staged c).map (fun e => e.Value.val), (staged c).map Element.addr,
        fun k => if k ∈ (staged c).map (fun e => e.Value.val) then none
          else c.listOfEvictList k) := hs
  have hrem : ((staged c).map Element.addr).foldl GoList.Remove c.evictList
      = c.evictList.take (c.evictList.length - evictCount c) := by
    rw [foldl_Remove]
    have hsplit := List.take_append_drop (c.evictList.length - evictCount c) c.evictList
    have h' := h
    rw [← hsplit] at h'
    have := filter_not_mem_back h' ((staged c).map Element.addr) (by
      intro x
      rw [staged_eq, List.map_reverse, List.mem_reverse])
    rw [hsplit] at this
    exact this
  rcases hev : evictStage c.RemoveThisManyItemsFromTheCache c.evictList.reverse 0 [] []
      c.listOfEvictList with ⟨vr, vals, els, m⟩
  rw [hev] at hst
  simp only [Prod.mk.injEq] at hst
  obtain ⟨h1, h2, h3⟩ := hst
  subst h1 h2 h3
  simp only [evictFromCache, hev, hrem]

theorem evictDelete_ok (vals : List Key) :
    ∀ db : DB, (∀ k, k ∈ vals → db.deleteErr k = none) →
      evictDelete vals db =
        (Exit.returned none, { db with kv := fun k => if k ∈ vals then none else db.kv k }) := by
  induction vals with
  | nil => intro db _; simp [evictDelete]
  | cons v rest ih =>
    intro db h
    have hv : db.deleteErr v = none := h v (List.mem_cons_self _ _)
    unfold evictDelete
    simp only [DB.Delete, hv]
    refine (ih { db with kv := Function.update db.kv v none }
      (fun k hk => h k (List.mem_cons_of_mem _ hk))).trans ?_
    refine Prod.ext rfl ?_
    simp only [DB.mk.injEq, and_true, true_and]
    funext k
    by_cases hk : k = v
    · subst hk; simp
    · simp [hk, Function.update_noteq hk]

theorem evictDelete_fail (pre : List Key) (x : Key) (post : List Key) (e : Error) :
    ∀ db : DB, (∀ k, k ∈ pre → db.deleteErr k = none) → db.deleteErr x = some e →
      evictDelete (pre ++ x :: post) db =
        (Exit.fatal e, { db with kv := fun k => if k ∈ pre then none else db.kv k }) := by
  induction pre with
  | nil =>
    intro db _ hx
    simp [evictDelete, DB.Delete, hx]
  | cons v rest ih =>
    intro db h hx
    have hv : db.deleteErr v = none := h v (List.mem_cons_self _ _)
    rw [List.cons_append]
    unfold evictDelete
    simp only [DB.Delete, hv]
    refine (ih { db with kv := Function.update db.kv v none }
      (fun k hk => h k (List.mem_cons_of_mem _ hk)) hx).trans ?_
    refine Prod.ext rfl ?_
    simp only [DB.mk.injEq, and_true, true_and]
    funext k
    by_cases hk : k = v
    · subst hk; simp
    · simp [hk, Function.update_noteq hk]

theorem not_mem_take_of_mem_drop {l : List Element} (hl : l.Nodup) {n : Nat} {e : Element}
    (h1 : e ∈ l.take n) (h2 : e ∈ l.drop n) : False := by
  rw [← List.take_append_drop n l] at hl
  exact List.disjoint_of_nodup_append hl h1 h2

theorem inv_evictFromCache {c : Cache} (h : Inv c) (db : DB) :
    Inv (evictFromCache c db).2.1 := by
  rw [evictFromCache_eq c db h.addr_nodup]
  have hl : c.evictList.Nodup := List.Nodup.of_map _ h.addr_nodup
  have hkn : (c.evictList.map (fun e => e.Value.val)).Nodup := h.keys_nodup
  refine ⟨?_, ?_, ?_, ?_, ?_⟩
  · exact List.Nodup.sublist ((List.take_sublist _ _).map _) h.addr_nodup
  · exact List.Nodup.sublist ((List.take_sublist _ _).map _) hkn
  · intro e he
    have hel := List.mem_of_mem_take he
    have hns : e.Value.val ∉ (staged c).map (fun e => e.Value.val) := by
      intro hmem
      obtain ⟨e', he', hk⟩ := List.mem_map.mp hmem
      rw [staged_eq, List.mem_reverse] at he'
      have hee : e' = e := key_inj hkn (List.mem_of_mem_drop he') hel hk
      subst hee
      exact not_mem_take_of_mem_drop hl he he'
    simp only [hns, if_false]
    exact h.map_of_mem e hel
  · intro k a hka
    simp only at hka
    split at hka
    · cases hka
    · rename_i hns
      have hmem := h.mem_of_map k a hka
      rw [← List.take_append_drop (c.evictList.length - evictCount c) c.evictList] at hmem
      rcases List.mem_append.mp hmem with h1 | h2
      · exact h1
      · exfalso
        apply hns
        rw [staged_eq]
        exact List.mem_map.mpr ⟨_, List.mem_reverse.mpr h2, rfl⟩
  · intro e he
    exact h.fresh e (List.mem_of_mem_take he)

theorem inv_of_fields {c c' : Cache} (h : Inv c) (h1 : c'.evictList = c.evictList)
    (h2 : c'.listOfEvictList = c.listOfEvictList) (h3 : c'.nextAddr = c.nextAddr) : Inv c' := by
  refine ⟨?_, ?_, ?_, ?_, ?_⟩
  · rw [h1]; exact h.addr_nodup
  · simp only [Cache.keys, h1]; exact h.keys_nodup
  · rw [h1, h2]; exact h.map_of_mem
  · rw [h1, h2]; exact h.mem_of_map
  · rw [h1, h3]; exact h.fresh

theorem inv_Get {c : Cache} (h : Inv c) (key : Key) (db : DB) : Inv (Get c key db).2 := by
  unfold Get
  split
  · exact h
  · split
    · exact h
    · split
      · exact h
      · exact inv_moveItemToFront h key

theorem Set_cache (c : Cache) (key : Key) (val : Value) (db : DB) :
    (Set c key val db).2.1 =
        { moveItemToFront c key with
          hitCounter := wrapInt ((moveItemToFront c key).hitCounter + 1) } ∨
    (Set c key val db).2.1 =
        (evictFromCache { moveItemToFront c key with
          hitCounter := wrapInt ((moveItemToFront c key).hitCounter + 1) } db).2.1 := by
  unfold Set
  simp only [Int.emod_one, if_true]
  split
  · right
    split <;> rename_i heq <;> simp only [heq]
    split <;> rfl
  · left
    split <;> rfl

theorem inv_Set {c : Cache} (h : Inv c) (key : Key) (val : Value) (db : DB) :
    Inv (Set c key val db).2.1 := by
  have h2 : Inv { moveItemToFront c key with
      hitCounter := wrapInt ((moveItemToFront c key).hitCounter + 1) } :=
    inv_of_fields (inv_moveItemToFront h key) rfl rfl rfl
  rcases Set_cache c key val db with h1 | h1
  · rw [h1]; exact h2
  · rw [h1]; exact inv_evictFromCache h2 db

theorem inv_of_reachable {c : Cache} (h : Reachable c) : Inv c := by
  induction h with
  | init m K loc => exact inv_NewCache m K loc
  | get c key db _ ih => exact inv_Get ih key db
  | set c key val db _ ih => exact inv_Set ih key val db
  | evict c db _ ih => exact inv_evictFromCache ih db

/-! ## List and lookup map agree -/

/-- When the caller writes into no key buffer between the calls: in every state
reachable from `NewCache` by `Get`, `Set` and `evictFromCache`, a key is in the
recency list iff it has a lookup map entry, the entry is the address of an
element of the list carrying that key, every element carrying the key is that
one, and no key is twice in the list. -/
theorem reachable_list_map_agree (c : Cache) (h : Reachable c) :
    (∀ k, k ∈ c.keys ↔ c.listOfEvictList k ≠ none) ∧
    (∀ k a, c.listOfEvictList k = some a → (⟨a, ⟨k⟩⟩ : Element) ∈ c.evictList) ∧
    (∀ e, e ∈ c.evictList → c.listOfEvictList e.Value.val = some e.addr) ∧
    c.keys.Nodup := by
  have hinv := inv_of_reachable h
  refine ⟨?_, hinv.mem_of_map, hinv.map_of_mem, hinv.keys_nodup⟩
  intro k
  rw [← tracked_iff_mem_keys hinv k, Option.ne_none_iff_isSome]

/-- C2: list and lookup map come apart when a key buffer is used again.  After
`Set` of `"a"` through a buffer, a write of `"b"` into that buffer and `Set` of
`"b"`, the key `b` is twice in the list, the lookup map has an entry for `"a"`,
which is not in the list, and that entry is the address of an element whose key
reads `b`. -/
theorem reused_buffer_breaks_agreement :
    (runOps [Op.set [97] [1] [], Op.write 0 [98], Op.set [98] [2] []]
      (NewCache 100 1 "db").1 (DB.fresh [])).1.evictList
      = [⟨1, ⟨[98]⟩⟩, ⟨0, ⟨[98]⟩⟩] ∧
    ¬ (runOps [Op.set [97] [1] [], Op.write 0 [98], Op.set [98] [2] []]
      (NewCache 100 1 "db").1 (DB.fresh [])).1.keys.Nodup ∧
    (runOps [Op.set [97] [1] [], Op.write 0 [98], Op.set [98] [2] []]
      (NewCache 100 1 "db").1 (DB.fresh [])).1.listOfEvictList [97] = some 0 ∧
    [97] ∉ (runOps [Op.set [97] [1] [], Op.write 0 [98], Op.set [98] [2] []]
      (NewCache 100 1 "db").1 (DB.fresh [])).1.keys ∧
    (runOps [Op.set [97] [1] [], Op.write 0 [98], Op.set [98] [2] []]
      (NewCache 100 1 "db").1 (DB.fresh [])).1.listOfEvictList [98] = some 1 := by
  decide

/-! ## What one eviction removes -/

theorem keys_length (c : Cache) : c.keys.length = c.evictList.length := by
  simp [Cache.keys]

theorem staged_keys (c : Cache) :
    (staged c).map (fun e => e.Value.val) = (coldest c (evictCount c)).reverse := by
  rw [staged_eq, List.map_reverse, List.map_drop, coldest, keys_length]
  rfl

theorem evictFromCache_ok (c : Cache) (db : DB) (h : (c.evictList.map Element.addr).Nodup)
    (hdel : ∀ k, db.deleteErr k = none) :
    evictFromCache c db =
      (Exit.returned none,
       { c with
         listOfEvictList := fun k =>
           if k ∈ coldest c (evictCount c) then none else c.listOfEvictList k
         evictList := c.evictList.take (c.evictList.length - evictCount c) },
       { db with kv := fun k => if k ∈ coldest c (evictCount c) then none else db.kv k }) := by
  rw [evictFromCache_eq c db h, evictDelete_ok _ db (fun k _ => hdel k), staged_keys]
  simp only [List.mem_reverse]

theorem evictCount_of_pos {c : Cache} (hK : 1 ≤ c.RemoveThisManyItemsFromTheCache) :
    evictCount c = min c.RemoveThisManyItemsFromTheCache.toNat c.evictList.length := by
  unfold evictCount
  rw [max_eq_left hK]

theorem keys_take (c : Cache) (n : Nat) :
    (c.evictList.take n).map (fun e => e.Value.val) = c.keys.take n := by
  simp [Cache.keys, List.map_take]

theorem mem_keys_split {c : Cache} (h : c.keys.Nodup) (m : Nat) (k : Key) :
    (k ∈ coldest c m → k ∉ c.keys.take (c.keys.length - m)) ∧
    (k ∉ coldest c m → (k ∈ c.keys.take (c.keys.length - m) ↔ k ∈ c.keys)) := by
  have hsplit := List.take_append_drop (c.keys.length - m) c.keys
  have hnd := h
  rw [← hsplit] at hnd
  have hdis := List.disjoint_of_nodup_append hnd
  constructor
  · intro hk hk'
    exact hdis hk' hk
  · intro hk
    constructor
    · exact List.mem_of_mem_take
    · intro hmem
      rw [← hsplit] at hmem
      rcases List.mem_append.mp hmem with h1 | h1
      · exact h1
      · exact absurd h1 hk

/-- C4: for a key the store does not hold, `Get` returns no value and an error,
the not-found error of the store when the read itself does not fail, and the
cache (list, lookup map and every other field) is the one before the call; the
store is only read. -/
theorem Get_absent (c : Cache) (key : Key) (db : DB) (habs : db.kv key = none) :
    (∃ err, Get c key db = ((none, some err), c)) ∧
    (db.getErr key = none → Get c key db = ((none, some Error.ErrNotFound), c)) := by
  unfold Get DB.Get
  cases hg : db.getErr key with
  | some e => simp
  | none => simp [habs]

/-- Witness of C4: `Get("b")` after `Set("a")` on a store that was empty. -/
theorem Get_absent_witness :
    Get (Set (NewCache 100 2 "db").1 [97] [1] (DB.fresh [])).2.1 [98]
        (Set (NewCache 100 2 "db").1 [97] [1] (DB.fresh [])).2.2
      = ((none, some Error.ErrNotFound),
          (Set (NewCache 100 2 "db").1 [97] [1] (DB.fresh [])).2.1) :=
  (Get_absent (Set (NewCache 100 2 "db").1 [97] [1] (DB.fresh [])).2.1 [98]
    (Set (NewCache 100 2 "db").1 [97] [1] (DB.fresh [])).2.2 (by decide)).2 (by decide)

/-! ## Set -/

theorem moveItemToFront_MaxSizeInBytes (c : Cache) (k : Key) :
    (moveItemToFront c k).MaxSizeInBytes = c.MaxSizeInBytes := by
  unfold moveItemToFront
  split <;> rfl

theorem moveItemToFront_batch (c : Cache) (k : Key) :
    (moveItemToFront c k).RemoveThisManyItemsFromTheCache
      = c.RemoveThisManyItemsFromTheCache := by
  unfold moveItemToFront
  split <;> rfl

theorem inv_afterTouch {c : Cache} (h : Inv c) (k : Key) : Inv (afterTouch c k) :=
  inv_of_fields (inv_moveItemToFront h k) rfl rfl rfl

theorem keys_afterTouch {c : Cache} (h : Inv c) (k : Key) :
    (afterTouch c k).keys = k :: c.keys.filter (fun x => x != k) :=
  keys_moveItemToFront h k

theorem Set_within (c : Cache) (key : Key) (val : Value) (db : DB)
    (h : getTableSize db ≤ c.MaxSizeInBytes) :
    Set c key val db = (Exit.returned (db.Set key val).1, afterTouch c key, (db.Set key val).2) := by
  have h' : ¬ getTableSize db > (moveItemToFront c key).MaxSizeInBytes := by
    rw [moveItemToFront_MaxSizeInBytes]; omega
  unfold Set
  simp only [Int.emod_one, if_true, h', if_false]
  split <;> rename_i heq <;> simp only [heq] <;> rfl

theorem Set_over (c : Cache) (key : Key) (val : Value) (db : DB)
    (h : getTableSize db > c.MaxSizeInBytes) :
    Set c key val db =
      match evictFromCache (afterTouch c key) db with
      | (Exit.fatal err, c3, db3) => (Exit.fatal err, c3, db3)
      | (Exit.returned (some err), c3, db3) => (Exit.fatal err, c3, db3)
      | (Exit.returned none, c3, db3) =>
        (Exit.returned (db3.Set key val).1, c3, (db3.Set key val).2) := by
  have h' : getTableSize db > (moveItemToFront c key).MaxSizeInBytes := by
    rw [moveItemToFront_MaxSizeInBytes]; exact h
  unfold Set
  simp only [Int.emod_one, if_true, h', afterTouch]
  split
  · rfl
  · rfl
  · split <;> rename_i heq <;> simp only [heq]

theorem evictFromCache_store (c : Cache) (db : DB) :
    ∃ vals, (evictFromCache c db).1 = (evictDelete vals db).1 ∧
      (evictFromCache c db).2.2 = (evictDelete vals db).2 := by
  rcases hev : evictStage c.RemoveThisManyItemsFromTheCache c.evictList.reverse 0 [] []
      c.listOfEvictList with ⟨vr, vals, els, m⟩
  refine ⟨vals, ?_, ?_⟩ <;> simp only [evictFromCache, hev]

theorem Get_after_write (c : Cache) (k : Key) (v : Value) (db : DB) (h : db.NoFaults) :
    (db.Set k v).1 = none ∧ (Get c k (db.Set k v).2).1 = (some v, none) := by
  obtain ⟨hg, hc, hs, _⟩ := h k
  simp [DB.Set, hs, Get, DB.Get, hg, hc]

theorem evictFromCache_noFaults (c : Cache) (db : DB) (h : db.NoFaults) :
    (evictFromCache c db).1 = Exit.returned none ∧ (evictFromCache c db).2.2.NoFaults := by
  obtain ⟨vals, h1, h2⟩ := evictFromCache_store c db
  rw [h1, h2, evictDelete_ok vals db (fun k _ => (h k).2.2.2)]
  exact ⟨rfl, h⟩

/-- C5: on a store whose operations succeed, `Set(k, v)` returns nil and the
`Get(k)` that follows it returns `v` and no error, for every cache state, batch
size and reported size, whether or not the `Set` ran an eviction. -/
theorem Set_then_Get (c : Cache) (k : Key) (v : Value) (db : DB) (h : db.NoFaults) :
    (Set c k v db).1 = Exit.returned none ∧
    (Get (Set c k v db).2.1 k (Set c k v db).2.2).1 = (some v, none) := by
  by_cases hsz : getTableSize db ≤ c.MaxSizeInBytes
  · rw [Set_within c k v db hsz]
    have hw := Get_after_write (afterTouch c k) k v db h
    exact ⟨by rw [hw.1], hw.2⟩
  · rw [Set_over c k v db (by omega)]
    obtain ⟨h1, h2⟩ := evictFromCache_noFaults (afterTouch c k) db h
    rcases hev : evictFromCache (afterTouch c k) db with ⟨r, c3, db3⟩
    rw [hev] at h1 h2
    simp only at h1 h2
    subst h1
    have hw := Get_after_write c3 k v db3 h2
    exact ⟨by simp only [hw.1], hw.2⟩

/-- Witness of C5: a `Set("a")` that evicts `a` itself before the write. -/
theorem Set_then_Get_witness :
    (Set (NewCache 0 1 "db").1 [97] [1] (DB.fresh [[⟨5⟩]])).1 = Exit.returned none ∧
    (Get (Set (NewCache 0 1 "db").1 [97] [1] (DB.fresh [[⟨5⟩]])).2.1 [97]
      (Set (NewCache 0 1 "db").1 [97] [1] (DB.fresh [[⟨5⟩]])).2.2).1 = (some [1], none) :=
  Set_then_Get (NewCache 0 1 "db").1 [97] [1] (DB.fresh [[⟨5⟩]])
    (fun _ => ⟨rfl, rfl, rfl, rfl⟩)

/-- C6 as stated fails: on a new cache with `K = 1` and a store reporting more
than the ceiling, `Set("a")` returns nil and `a` is neither tracked nor in the
list. -/
theorem Set_evicts_own_key :
    (NewCache 0 1 "db").1.RemoveThisManyItemsFromTheCache = 1 ∧
    (Set (NewCache 0 1 "db").1 [97] [1] (DB.fresh [[⟨5⟩]])).1 = Exit.returned none ∧
    (Set (NewCache 0 1 "db").1 [97] [1] (DB.fresh [[⟨5⟩]])).2.1.listOfEvictList [97] = none ∧
    (Set (NewCache 0 1 "db").1 [97] [1] (DB.fresh [[⟨5⟩]])).2.1.keys = [] := by
  decide

theorem Set_front_of_room (c : Cache) (k : Key) (v : Value) (db : DB) (hinv : Inv c)
    (hK : 1 ≤ c.RemoveThisManyItemsFromTheCache)
    (h : getTableSize db ≤ c.MaxSizeInBytes ∨
      c.RemoveThisManyItemsFromTheCache < ((moveItemToFront c k).evictList.length : Int)) :
    (Set c k v db).2.1.listOfEvictList k ≠ none ∧
    (Set c k v db).2.1.keys.head? = some k := by
  have hinv2 := inv_afterTouch hinv k
  have hkeys := keys_afterTouch hinv k
  have hmap : (afterTouch c k).listOfEvictList k ≠ none := by
    rw [Option.ne_none_iff_isSome, tracked_iff_mem_keys hinv2, hkeys]
    exact List.mem_cons_self _ _
  by_cases hsz : getTableSize db ≤ c.MaxSizeInBytes
  · rw [Set_within c k v db hsz]
    exact ⟨hmap, by simp only [hkeys, List.head?_cons]⟩
  · have hlt : c.RemoveThisManyItemsFromTheCache
        < ((moveItemToFront c k).evictList.length : Int) := by
      rcases h with h | h
      · exact absurd h hsz
      · exact h
    have hcache : (Set c k v db).2.1 = (evictFromCache (afterTouch c k) db).2.1 := by
      rw [Set_over c k v db (by omega)]
      split <;> rename_i heq <;> simp only [heq]
    rw [hcache, evictFromCache_eq _ db hinv2.addr_nodup, staged_keys]
    have hK2 : 1 ≤ (afterTouch c k).RemoveThisManyItemsFromTheCache := by
      simp only [afterTouch, moveItemToFront_batch]; exact hK
    have hlen : (afterTouch c k).evictList.length = (moveItemToFront c k).evictList.length := rfl
    have hcount : evictCount (afterTouch c k) < (afterTouch c k).evictList.length := by
      rw [evictCount_of_pos hK2, hlen]
      simp only [afterTouch, moveItemToFront_batch]
      omega
    have hpos : 0 < (afterTouch c k).keys.length - evictCount (afterTouch c k) := by
      rw [keys_length]; omega
    have hhead : k ∈ (afterTouch c k).keys.take
        ((afterTouch c k).keys.length - evictCount (afterTouch c k)) := by
      rw [hkeys] at hpos ⊢
      obtain ⟨j, hj⟩ : ∃ j, (k :: c.keys.filter (fun x => x != k)).length
          - evictCount (afterTouch c k) = j + 1 := ⟨_, (Nat.succ_pred_eq_of_pos hpos).symm⟩
      rw [hj, List.take_succ_cons]
      exact List.mem_cons_self _ _
    have hnot : k ∉ coldest (afterTouch c k) (evictCount (afterTouch c k)) := fun hk =>
      (mem_keys_split hinv2.keys_nodup _ k).1 hk hhead
    constructor
    · simp only [List.mem_reverse, hnot, if_false]
      exact hmap
    · simp only [Cache.keys, keys_take]
      rw [← keys_length]
      have hk' : (afterTouch c k).evictList.map (fun e => e.Value.val)
          = k :: c.keys.filter (fun x => x != k) := hkeys
      rw [hk']
      rw [hkeys] at hpos
      obtain ⟨j, hj⟩ : ∃ j, (k :: c.keys.filter (fun x => x != k)).length
          - evictCount (afterTouch c k) = j + 1 := ⟨_, (Nat.succ_pred_eq_of_pos hpos).symm⟩
      rw [hkeys, hj, List.take_succ_cons, List.head?_cons]

/-- C6 (amended): for `K ≥ 1`, when the `Set` runs no eviction or more than `K`
keys are tracked once the key is touched, after `Set(k, v)` the key is tracked
in the lookup map and is the front element of the recency list. -/
theorem Set_key_front (c : Cache) (k : Key) (v : Value) (db : DB) (hinv : Inv c)
    (hK : 1 ≤ c.RemoveThisManyItemsFromTheCache)
    (h : getTableSize db ≤ c.MaxSizeInBytes ∨
      c.RemoveThisManyItemsFromTheCache < ((moveItemToFront c k).evictList.length : Int)) :
    (Set c k v db).2.1.listOfEvictList k ≠ none ∧
    (Set c k v db).2.1.keys.head? = some k :=
  Set_front_of_room c k v db hinv hK h

/-- Witness of C6: with `a` and `b` tracked and `K = 1`, a `Set("c")` that evicts
leaves `c` tracked and at the front. -/
theorem Set_key_front_witness :
    (Set (touches (NewCache 0 1 "db").1 [[97], [98]]) [99] [1]
      (DB.fresh [[⟨5⟩]])).2.1.listOfEvictList [99] ≠ none ∧
    (Set (touches (NewCache 0 1 "db").1 [[97], [98]]) [99] [1]
      (DB.fresh [[⟨5⟩]])).2.1.keys.head? = some [99] :=
  Set_key_front (touches (NewCache 0 1 "db").1 [[97], [98]]) [99] [1] (DB.fresh [[⟨5⟩]])
    (inv_touches (inv_NewCache 0 1 "db") _) (by decide) (Or.inr (by decide))

theorem mem_keys_afterTouch {c : Cache} (h : Inv c) (k x : Key) :
    x ∈ (afterTouch c k).keys ↔ x = k ∨ x ∈ c.keys := by
  rw [keys_afterTouch h k]
  simp only [List.mem_cons, List.mem_filter, bne_iff_ne, ne_eq]
  constructor
  · rintro (h1 | ⟨h1, _⟩)
    · exact Or.inl h1
    · exact Or.inr h1
  · rintro (h1 | h1)
    · exact Or.inl h1
    · by_cases hx : x = k
      · exact Or.inl hx
      · exact Or.inr ⟨h1, hx⟩

/-- C7: when the size reported by `getTableSize` is at most `MaxSizeInBytes`,
`Set` runs no eviction: it returns what the durable write returns, the cache is
the one after the touch of the key (with the call counted in `hitCounter`), the
store is the one after the write; every key of the list stays in the list,
every lookup map entry stays, and every stored key stays stored. -/
theorem Set_within_ceiling (c : Cache) (key : Key) (val : Value) (db : DB) (hinv : Inv c)
    (h : getTableSize db ≤ c.MaxSizeInBytes) :
    Set c key val db
      = (Exit.returned (db.Set key val).1, afterTouch c key, (db.Set key val).2) ∧
    (∀ k, k ∈ (Set c key val db).2.1.keys ↔ k = key ∨ k ∈ c.keys) ∧
    (Set c key val db).2.1.keys.filter (fun x => x != key)
      = c.keys.filter (fun x => x != key) ∧
    (∀ k, c.listOfEvictList k ≠ none → (Set c key val db).2.1.listOfEvictList k ≠ none) ∧
    (∀ k, db.kv k ≠ none → (Set c key val db).2.2.kv k ≠ none) ∧
    (∀ k, k ≠ key → (Set c key val db).2.2.kv k = db.kv k) := by
  have hinv2 := inv_afterTouch hinv key
  rw [Set_within c key val db h]
  refine ⟨rfl, fun k => mem_keys_afterTouch hinv key k, ?_, ?_, ?_, ?_⟩
  · simp only [keys_afterTouch hinv key, List.filter_cons, bne_self_eq_false, Bool.false_eq_true,
      if_false, List.filter_filter, Bool.and_self]
  · intro k hk
    rw [Option.ne_none_iff_isSome, tracked_iff_mem_keys] at hk ⊢
    · exact (mem_keys_afterTouch hinv key k).mpr (Or.inr hk)
    · exact hinv2
    · exact hinv
  · intro k hk
    unfold DB.Set
    split
    · exact hk
    · by_cases hkk : k = key
      · subst hkk; simp
      · simpa [Function.update_noteq hkk] using hk
  · intro k hk
    unfold DB.Set
    split
    · rfl
    · simp [Function.update_noteq hk]

/-- Witness of C7: a `Set("c")` under the ceiling with `a` and `b` tracked. -/
theorem Set_within_ceiling_witness :
    Set (touches (NewCache 100 1 "db").1 [[97], [98]]) [99] [1] (DB.fresh [[⟨5⟩]])
      = (Exit.returned ((DB.fresh [[⟨5⟩]]).Set [99] [1]).1,
          afterTouch (touches (NewCache 100 1 "db").1 [[97], [98]]) [99],
          ((DB.fresh [[⟨5⟩]]).Set [99] [1]).2) :=
  (Set_within_ceiling (touches (NewCache 100 1 "db").1 [[97], [98]]) [99] [1]
    (DB.fresh [[⟨5⟩]]) (inv_touches (inv_NewCache 100 1 "db") _) (by decide)).1

/-! ## A hot key across evictions -/

theorem Set_cache_eq (c : Cache) (key : Key) (val : Value) (db : DB) :
    (Set c key val db).2.1 =
      if getTableSize db ≤ c.MaxSizeInBytes then afterTouch c key
      else (evictFromCache (afterTouch c key) db).2.1 := by
  by_cases hsz : getTableSize db ≤ c.MaxSizeInBytes
  · rw [Set_within c key val db hsz, if_pos hsz]
  · rw [Set_over c key val db (by omega), if_neg hsz]
    split <;> rename_i heq <;> simp only [heq]

theorem evictFromCache_batch (c : Cache) (db : DB) :
    (evictFromCache c db).2.1.RemoveThisManyItemsFromTheCache
      = c.RemoveThisManyItemsFromTheCache := by
  rcases hev : evictStage c.RemoveThisManyItemsFromTheCache c.evictList.reverse 0 [] []
      c.listOfEvictList with ⟨vr, vals, els, m⟩
  simp only [evictFromCache, hev]

theorem Set_batch (c : Cache) (key : Key) (val : Value) (db : DB) :
    (Set c key val db).2.1.RemoveThisManyItemsFromTheCache
      = c.RemoveThisManyItemsFromTheCache := by
  rw [Set_cache_eq]
  split
  · simp only [afterTouch, moveItemToFront_batch]
  · rw [evictFromCache_batch]
    simp only [afterTouch, moveItemToFront_batch]

theorem Set_keys_subset {c : Cache} (hinv : Inv c) (key : Key) (val : Value) (db : DB)
    (x : Key) (hx : x ∈ (Set c key val db).2.1.keys) : x = key ∨ x ∈ c.keys := by
  rw [Set_cache_eq] at hx
  apply (mem_keys_afterTouch hinv key x).mp
  split at hx
  · exact hx
  · rw [evictFromCache_eq _ db (inv_afterTouch hinv key).addr_nodup] at hx
    simp only [Cache.keys, keys_take] at hx
    exact List.mem_of_mem_take hx

theorem Set_noFaults (c : Cache) (k : Key) (v : Value) (db : DB) (h : db.NoFaults) :
    (Set c k v db).1 = Exit.returned none ∧ (Set c k v db).2.2.NoFaults ∧
    (Set c k v db).2.2.kv k = some v := by
  have hw : ∀ d : DB, d.NoFaults →
      (d.Set k v).1 = none ∧ (d.Set k v).2.NoFaults ∧ (d.Set k v).2.kv k = some v := by
    intro d hd
    have hs := (hd k).2.2.1
    simp only [DB.Set, hs, Function.update_same, true_and, and_true]
    exact hd
  by_cases hsz : getTableSize db ≤ c.MaxSizeInBytes
  · rw [Set_within c k v db hsz]
    obtain ⟨h1, h2, h3⟩ := hw db h
    exact ⟨by simp only [h1], h2, h3⟩
  · rw [Set_over c k v db (by omega)]
    obtain ⟨h1, h2⟩ := evictFromCache_noFaults (afterTouch c k) db h
    rcases hev : evictFromCache (afterTouch c k) db with ⟨r, c3, db3⟩
    rw [hev] at h1 h2
    simp only at h1 h2
    subst h1
    obtain ⟨h3, h4, h5⟩ := hw db3 h2
    exact ⟨by simp only [h3], h4, h5⟩

theorem Set_kv_other {c : Cache} (hinv : Inv c) (k : Key) (v : Value) (db : DB)
    (h : db.NoFaults) (x : Key) (hxk : x ≠ k)
    (hx : x ∉ coldest (afterTouch c k) (evictCount (afterTouch c k))) :
    (Set c k v db).2.2.kv x = db.kv x := by
  have hs := (h k).2.2.1
  by_cases hsz : getTableSize db ≤ c.MaxSizeInBytes
  · rw [Set_within c k v db hsz]
    simp only [DB.Set, hs, Function.update_noteq hxk]
  · rw [Set_over c k v db (by omega),
      evictFromCache_ok _ db (inv_afterTouch hinv k).addr_nodup (fun y => (h y).2.2.2)]
    simp only [DB.Set, hs, Function.update_noteq hxk, hx, if_false]

theorem Set_over_ok {c : Cache} (hinv : Inv c) (k : Key) (v : Value) (db : DB)
    (hnf : db.NoFaults) (hsz : getTableSize db > c.MaxSizeInBytes) :
    Set c k v db =
      (Exit.returned none,
       { afterTouch c k with
         listOfEvictList := fun x =>
           if x ∈ coldest (afterTouch c k) (evictCount (afterTouch c k)) then none
           else (afterTouch c k).listOfEvictList x
         evictList := (afterTouch c k).evictList.take
           ((afterTouch c k).evictList.length - evictCount (afterTouch c k)) },
       { db with
         kv := Function.update
           (fun x => if x ∈ coldest (afterTouch c k) (evictCount (afterTouch c k)) then none
             else db.kv x) k (some v) }) := by
  rw [Set_over c k v db hsz,
    evictFromCache_ok _ db (inv_afterTouch hinv k).addr_nodup (fun y => (hnf y).2.2.2)]
  simp only [DB.Set, (hnf k).2.2.1]

theorem Set_head_or_absent {c : Cache} (hinv : Inv c) (key : Key) (val : Value) (db : DB) :
    (Set c key val db).2.1.keys.head? = some key ∨ key ∉ (Set c key val db).2.1.keys := by
  have hkeys := keys_afterTouch hinv key
  rw [Set_cache_eq]
  split
  · left; rw [hkeys]; rfl
  · rw [evictFromCache_eq _ db (inv_afterTouch hinv key).addr_nodup]
    simp only [Cache.keys, keys_take]
    have hk' : (afterTouch c key).evictList.map (fun e => e.Value.val)
        = key :: c.keys.filter (fun x => x != key) := hkeys
    rw [hk']
    cases hn : (afterTouch c key).evictList.length - evictCount (afterTouch c key) with
    | zero => right; simp
    | succ j => left; rw [List.take_succ_cons, List.head?_cons]

theorem NoFaults_withTables {db : DB} (h : db.NoFaults) (t : List (List TableInfo)) :
    (db.withTables t).NoFaults := h

theorem Get_present (c : Cache) (a : Key) (v : Value) (db : DB) (h : db.NoFaults)
    (hkv : db.kv a = some v) : Get c a db = ((some v, none), moveItemToFront c a) := by
  obtain ⟨hg, hc, _, _⟩ := h a
  simp [Get, DB.Get, hg, hc, hkv]

theorem hot_step (a : Key) (v : Value) (k : Key) (w : Value) (t : List (List TableInfo))
    (c : Cache) (db : DB) (hinv : Inv c) (hnf : db.NoFaults)
    (hK : c.RemoveThisManyItemsFromTheCache = 1) (hkv : db.kv a = some v) (hak : a ≠ k)
    (hk : k ∉ c.keys)
    (hroom : getTableSize (db.withTables t) ≤ c.MaxSizeInBytes ∨
      (c.keys.head? = some a ∧ 2 ≤ c.keys.length)) :
    Set c k w (db.withTables t)
      = (Exit.returned none, (Set c k w (db.withTables t)).2.1,
          (Set c k w (db.withTables t)).2.2) ∧
    (Set c k w (db.withTables t)).2.2.NoFaults ∧
    (Set c k w (db.withTables t)).2.2.kv a = some v ∧
    k ∈ (Set c k w (db.withTables t)).2.1.keys := by
  have hnf' := NoFaults_withTables hnf t
  obtain ⟨h1, h2, _⟩ := Set_noFaults c k w (db.withTables t) hnf'
  have hkeys2 : (afterTouch c k).keys = k :: c.keys := by
    rw [keys_afterTouch hinv k]
    congr 1
    apply List.filter_eq_self.mpr
    intro x hx
    exact bne_iff_ne.mpr (fun hxk => hk (hxk ▸ hx))
  have hinv2 := inv_afterTouch hinv k
  refine ⟨Prod.ext h1 rfl, h2, ?_, ?_⟩
  · rcases hroom with hsz | ⟨hhead, hlen⟩
    · rw [Set_within c k w (db.withTables t) hsz]
      have hs := (hnf k).2.2.1
      simp only [DB.Set, DB.withTables, hs, Function.update_noteq hak]
      exact hkv
    · rw [Set_kv_other hinv k w (db.withTables t) hnf' a hak]
      · exact hkv
      · intro hcold
        have hK2 : (1 : Int) ≤ (afterTouch c k).RemoveThisManyItemsFromTheCache := by
          simp only [afterTouch, moveItemToFront_batch, hK]; decide
        have hcount : evictCount (afterTouch c k) ≤ 1 := by
          rw [evictCount_of_pos hK2]
          simp only [afterTouch, moveItemToFront_batch, hK]
          exact Nat.min_le_left _ _
        apply (mem_keys_split hinv2.keys_nodup _ a).1 hcold
        rw [hkeys2]
        cases hck : c.keys with
        | nil => rw [hck] at hlen; simp at hlen
        | cons x tl =>
          rw [hck] at hhead hlen
          simp only [List.head?_cons, Option.some.injEq] at hhead
          subst hhead
          simp only [List.length_cons] at hlen ⊢
          obtain ⟨j, hj⟩ : ∃ j, tl.length + 1 + 1 - evictCount (afterTouch c k) = j + 2 :=
            ⟨tl.length - evictCount (afterTouch c k), by omega⟩
          rw [hj, List.take_succ_cons, List.take_succ_cons]
          simp
  · have hfront := Set_front_of_room c k w (db.withTables t) hinv (by rw [hK])
      (by
        rcases hroom with hsz | ⟨_, hlen⟩
        · exact Or.inl hsz
        · right
          have hl : (moveItemToFront c k).evictList.length = (afterTouch c k).keys.length := by
            rw [keys_length]; rfl
          rw [hK, hl, hkeys2, List.length_cons]
          omega)
    exact List.mem_of_mem_head? hfront.2

theorem hotRun_round (a : Key) (v : Value) (k : Key) (w : Value) (t : List (List TableInfo))
    (rest : List (Key × Value × List (List TableInfo))) (c : Cache) (db : DB)
    (hS : Set c k w (db.withTables t)
      = (Exit.returned none, (Set c k w (db.withTables t)).2.1,
          (Set c k w (db.withTables t)).2.2))
    (hnf : (Set c k w (db.withTables t)).2.2.NoFaults)
    (hkv : (Set c k w (db.withTables t)).2.2.kv a = some v) :
    hotRun a ((k, w, t) :: rest) c db =
      (some v, none) :: hotRun a rest (moveItemToFront (Set c k w (db.withTables t)).2.1 a)
        (Set c k w (db.withTables t)).2.2 := by
  have hG := Get_present (Set c k w (db.withTables t)).2.1 a v _ hnf hkv
  rw [hotRun]
  generalize Set c k w (db.withTables t) = S at hS hG ⊢
  obtain ⟨r, c1, db1⟩ := S
  simp only [Prod.mk.injEq, and_true] at hS
  subst hS
  simp only at hG ⊢
  rw [hG]

/-- C8 as stated fails: with ceiling 0 and `K = 1`, after `Set("a")` on the empty
store, a `Set("b")` to which the store reports 5 bytes evicts `a`, and the
`Get("a")` that follows finds nothing. -/
theorem hot_key_evicted_when_alone :
    hotRun [97] [([98], [3], [[⟨5⟩]])]
        (Set (NewCache 0 1 "db").1 [97] [2] (DB.fresh [])).2.1
        (Set (NewCache 0 1 "db").1 [97] [2] (DB.fresh [])).2.2
      = [(none, some Error.ErrNotFound)] := by
  decide

theorem hotSafe_round (a : Key) (k : Key) (w : Value) (t : List (List TableInfo))
    (rest : List (Key × Value × List (List TableInfo))) (c : Cache) (db : DB)
    (hS : Set c k w (db.withTables t)
      = (Exit.returned none, (Set c k w (db.withTables t)).2.1,
          (Set c k w (db.withTables t)).2.2)) :
    hotSafe a ((k, w, t) :: rest) c db =
      (decide (getTableSize (db.withTables t) ≤ c.MaxSizeInBytes ∨ c.keys ≠ [a]) &&
        hotSafe a rest
          (Get (Set c k w (db.withTables t)).2.1 a (Set c k w (db.withTables t)).2.2).2
          (Set c k w (db.withTables t)).2.2) := by
  rw [hotSafe]
  generalize Set c k w (db.withTables t) = S at hS ⊢
  obtain ⟨r, c1, db1⟩ := S
  simp only [Prod.mk.injEq, and_true] at hS
  subst hS
  rfl

theorem hotRun_round_lost (a : Key) (k : Key) (w : Value) (t : List (List TableInfo))
    (rest : List (Key × Value × List (List TableInfo))) (c : Cache) (db : DB)
    (hS : Set c k w (db.withTables t)
      = (Exit.returned none, (Set c k w (db.withTables t)).2.1,
          (Set c k w (db.withTables t)).2.2))
    (hnf : (Set c k w (db.withTables t)).2.2.NoFaults)
    (hkv : (Set c k w (db.withTables t)).2.2.kv a = none) :
    ∃ l, hotRun a ((k, w, t) :: rest) c db = (none, some Error.ErrNotFound) :: l := by
  have hG : (Get (Set c k w (db.withTables t)).2.1 a (Set c k w (db.withTables t)).2.2).1
      = (none, some Error.ErrNotFound) := by
    simp [Get, DB.Get, (hnf a).1, hkv]
  rw [hotRun]
  generalize Set c k w (db.withTables t) = S at hS hG ⊢
  obtain ⟨r, c1, db1⟩ := S
  simp only [Prod.mk.injEq, and_true] at hS
  subst hS
  simp only at hG ⊢
  exact ⟨_, by rw [hG]⟩

theorem keys_afterTouch_new {c : Cache} (hinv : Inv c) {k : Key} (hk : k ∉ c.keys) :
    (afterTouch c k).keys = k :: c.keys := by
  rw [keys_afterTouch hinv k]
  congr 1
  apply List.filter_eq_self.mpr
  intro x hx
  exact bne_iff_ne.mpr (fun hxk => hk (hxk ▸ hx))

theorem hot_round_safe (a : Key) (v : Value) (k : Key) (w : Value) (t : List (List TableInfo))
    (c : Cache) (db : DB) (hinv : Inv c) (hnf : db.NoFaults)
    (hK : c.RemoveThisManyItemsFromTheCache = 1) (hkv : db.kv a = some v) (hak : a ≠ k)
    (hk : k ∉ c.keys) (hha : c.keys = [] ∨ c.keys.head? = some a)
    (hsafe : getTableSize (db.withTables t) ≤ c.MaxSizeInBytes ∨ c.keys ≠ [a]) :
    Set c k w (db.withTables t)
      = (Exit.returned none, (Set c k w (db.withTables t)).2.1,
          (Set c k w (db.withTables t)).2.2) ∧
    (Set c k w (db.withTables t)).2.2.NoFaults ∧
    (Set c k w (db.withTables t)).2.2.kv a = some v := by
  rcases hsafe with hsz | hne
  · obtain ⟨h1, h2, h3, _⟩ := hot_step a v k w t c db hinv hnf hK hkv hak hk (Or.inl hsz)
    exact ⟨h1, h2, h3⟩
  · rcases hha with hnil | hhead
    · have hnf' := NoFaults_withTables hnf t
      obtain ⟨h1, h2, _⟩ := Set_noFaults c k w (db.withTables t) hnf'
      refine ⟨Prod.ext h1 rfl, h2, ?_⟩
      by_cases hsz : getTableSize (db.withTables t) ≤ c.MaxSizeInBytes
      · rw [Set_within c k w (db.withTables t) hsz]
        simp only [DB.Set, DB.withTables, (hnf k).2.2.1, Function.update_noteq hak]
        exact hkv
      · rw [Set_kv_other hinv k w (db.withTables t) hnf' a hak]
        · exact hkv
        · intro hcold
          have hmem : a ∈ (afterTouch c k).keys := List.mem_of_mem_drop hcold
          rw [keys_afterTouch_new hinv hk, hnil] at hmem
          simp only [List.mem_singleton] at hmem
          exact hak hmem
    · have hlen : 2 ≤ c.keys.length := by
        cases hck : c.keys with
        | nil => rw [hck] at hhead; simp at hhead
        | cons x tl =>
          rw [hck] at hhead hne
          simp only [List.head?_cons, Option.some.injEq] at hhead
          subst hhead
          cases tl with
          | nil => exact absurd rfl hne
          | cons y tl' => simp
      obtain ⟨h1, h2, h3, _⟩ :=
        hot_step a v k w t c db hinv hnf hK hkv hak hk (Or.inr ⟨hhead, hlen⟩)
      exact ⟨h1, h2, h3⟩

theorem hot_round_unsafe (a : Key) (k : Key) (w : Value) (t : List (List TableInfo))
    (c : Cache) (db : DB) (hinv : Inv c) (hnf : db.NoFaults)
    (hK : c.RemoveThisManyItemsFromTheCache = 1) (hak : a ≠ k) (hkeys : c.keys = [a])
    (hsz : getTableSize (db.withTables t) > c.MaxSizeInBytes) :
    Set c k w (db.withTables t)
      = (Exit.returned none, (Set c k w (db.withTables t)).2.1,
          (Set c k w (db.withTables t)).2.2) ∧
    (Set c k w (db.withTables t)).2.2.NoFaults ∧
    (Set c k w (db.withTables t)).2.2.kv a = none := by
  have hnf' := NoFaults_withTables hnf t
  obtain ⟨h1, h2, _⟩ := Set_noFaults c k w (db.withTables t) hnf'
  refine ⟨Prod.ext h1 rfl, h2, ?_⟩
  have hk : k ∉ c.keys := by
    rw [hkeys]; simp only [List.mem_singleton]; exact fun h => hak h.symm
  have hkeys2 : (afterTouch c k).keys = [k, a] := by
    rw [keys_afterTouch_new hinv hk, hkeys]
  have hb : (afterTouch c k).RemoveThisManyItemsFromTheCache = 1 := by
    simp only [afterTouch, moveItemToFront_batch, hK]
  have hcount : evictCount (afterTouch c k) = 1 := by
    rw [evictCount_of_pos (by rw [hb]), hb, ← keys_length, hkeys2]
    rfl
  have hcold : a ∈ coldest (afterTouch c k) (evictCount (afterTouch c k)) := by
    rw [hcount, coldest, hkeys2]
    simp
  rw [Set_over_ok hinv k w (db.withTables t) hnf' hsz]
  simp only [Function.update_noteq hak, hcold, if_true]

theorem hotRun_iff_hotSafe (a : Key) (v : Value) :
    ∀ (steps : List (Key × Value × List (List TableInfo))) (c : Cache) (db : DB),
      Inv c → db.NoFaults → c.RemoveThisManyItemsFromTheCache = 1 → db.kv a = some v →
      (c.keys = [] ∨ c.keys.head? = some a) →
      (∀ s, s ∈ steps → s.1 ∉ c.keys ∧ s.1 ≠ a) → (steps.map (fun s => s.1)).Nodup →
      (hotRun a steps c db = List.replicate steps.length (some v, none) ↔
        hotSafe a steps c db = true) := by
  intro steps
  induction steps with
  | nil => intro c db _ _ _ _ _ _ _; simp [hotRun, hotSafe]
  | cons s rest ih =>
    intro c db hinv hnf hK hkv hha hfresh hnd
    obtain ⟨k, w, t⟩ := s
    obtain ⟨hk, hka⟩ := hfresh (k, w, t) (List.mem_cons_self _ _)
    have hak : a ≠ k := fun h => hka h.symm
    simp only [List.map_cons, List.nodup_cons] at hnd
    by_cases hsafe : getTableSize (db.withTables t) ≤ c.MaxSizeInBytes ∨ c.keys ≠ [a]
    · obtain ⟨hS, hnf1, hkv1⟩ := hot_round_safe a v k w t c db hinv hnf hK hkv hak hk hha hsafe
      have hinv1 := inv_Set hinv k w (db.withTables t)
      have hG := Get_present (Set c k w (db.withTables t)).2.1 a v _ hnf1 hkv1
      rw [hotRun_round a v k w t rest c db hS hnf1 hkv1, hotSafe_round a k w t rest c db hS,
        hG, List.length_cons, List.replicate_succ]
      simp only [List.cons.injEq, true_and, hsafe, decide_True, Bool.true_and]
      apply ih _ _ (inv_moveItemToFront hinv1 a) hnf1 _ hkv1 _ _ hnd.2
      · rw [moveItemToFront_batch, Set_batch, hK]
      · right
        rw [keys_moveItemToFront hinv1 a]
        rfl
      · intro s hs
        have hsf := hfresh s (List.mem_cons_of_mem _ hs)
        refine ⟨?_, hsf.2⟩
        intro hmem
        rw [keys_moveItemToFront hinv1 a] at hmem
        rcases List.mem_cons.mp hmem with h1 | h1
        · exact hsf.2 h1
        · rcases Set_keys_subset hinv k w _ _ (List.mem_of_mem_filter h1) with h2 | h2
          · exact hnd.1 (List.mem_map.mpr ⟨s, hs, h2⟩)
          · exact hsf.1 h2
    · have hsz : getTableSize (db.withTables t) > c.MaxSizeInBytes := by
        by_contra h
        exact hsafe (Or.inl (by omega))
      have hkeys : c.keys = [a] := by
        by_contra h
        exact hsafe (Or.inr h)
      obtain ⟨hS, hnf1, hkv1⟩ := hot_round_unsafe a k w t c db hinv hnf hK hak hkeys hsz
      obtain ⟨l, hl⟩ := hotRun_round_lost a k w t rest c db hS hnf1 hkv1
      rw [hl, hotSafe_round a k w t rest c db hS, List.length_cons, List.replicate_succ]
      simp [hsafe]

/-- C8 (amended): with `K = 1`, from an empty cache and store on which no
operation fails, after `Set(a, v)` and any run of `Set`s of pairwise distinct
keys other than `a`, each followed by `Get(a)`, the caller writing into no key
buffer it has passed: for every ceiling and all reported sizes, every `Get(a)`
returns `v` and no error if and only if no `Set` of the run evicts at a moment
when `a` is the only tracked key. -/
theorem hot_key_survives_iff (maxSize : Nat) (loc : String) (a : Key) (v : Value)
    (t0 : List (List TableInfo)) (steps : List (Key × Value × List (List TableInfo)))
    (hne : ∀ s, s ∈ steps → s.1 ≠ a) (hdist : (steps.map (fun s => s.1)).Nodup) :
    hotRun a steps (Set (NewCache maxSize 1 loc).1 a v (DB.fresh t0)).2.1
        (Set (NewCache maxSize 1 loc).1 a v (DB.fresh t0)).2.2
      = List.replicate steps.length (some v, none) ↔
    hotSafe a steps (Set (NewCache maxSize 1 loc).1 a v (DB.fresh t0)).2.1
        (Set (NewCache maxSize 1 loc).1 a v (DB.fresh t0)).2.2 = true := by
  have hnf0 : (DB.fresh t0).NoFaults := fun _ => ⟨rfl, rfl, rfl, rfl⟩
  obtain ⟨_, hnf, hkv⟩ := Set_noFaults (NewCache maxSize 1 loc).1 a v (DB.fresh t0) hnf0
  have hinv := inv_Set (inv_NewCache maxSize 1 loc) a v (DB.fresh t0)
  have hK := Set_batch (NewCache maxSize 1 loc).1 a v (DB.fresh t0)
  have hsub := Set_keys_subset (inv_NewCache maxSize 1 loc) a v (DB.fresh t0)
  have hhead := Set_head_or_absent (inv_NewCache maxSize 1 loc) a v (DB.fresh t0)
  have hkeys0 : ∀ x, x ∈ (Set (NewCache maxSize 1 loc).1 a v (DB.fresh t0)).2.1.keys →
      x = a := by
    intro x hx
    rcases hsub x hx with h1 | h1
    · exact h1
    · simp [NewCache, Cache.keys] at h1
  apply hotRun_iff_hotSafe a v steps _ _ hinv hnf hK hkv _ _ hdist
  · rcases hhead with h | h
    · exact Or.inr h
    · left
      apply List.eq_nil_iff_forall_not_mem.mpr
      intro x hx
      exact h (hkeys0 x hx ▸ hx)
  · intro s hs
    exact ⟨fun hmem => hne s hs (hkeys0 _ hmem), hne s hs⟩

/-- Witness of C8: ceiling 10; `Set("a")` evicts `a` itself, the `Set("b")` after
it evicts too, `Set("c")` runs under the ceiling and `Set("d")` evicts: `a` is
never alone in the list when an eviction runs, and the three `Get("a")` return
the value. -/
theorem hot_key_survives_iff_witness :
    hotRun [97] [([98], [3], [[⟨20⟩]]), ([99], [3], [[⟨4⟩]]), ([100], [3], [[⟨30⟩, ⟨5⟩]])]
        (Set (NewCache 10 1 "db").1 [97] [2] (DB.fresh [[⟨11⟩]])).2.1
        (Set (NewCache 10 1 "db").1 [97] [2] (DB.fresh [[⟨11⟩]])).2.2
      = List.replicate 3 (some [2], none) :=
  (hot_key_survives_iff 10 "db" [97] [2] [[⟨11⟩]]
    [([98], [3], [[⟨20⟩]]), ([99], [3], [[⟨4⟩]]), ([100], [3], [[⟨30⟩, ⟨5⟩]])]
    (by decide) (by decide)).mpr (by decide)

/-- The hot key is also lost when a key buffer is used again, in a run of the
shape above whose first `Set` after `Set("a")` runs no eviction: after `Set` of
`"b"` the caller writes `"a"` into the buffer of `b` and passes it to `Get`, so
the list reads `a, a`, and the `Set("c")` that evicts deletes `"a"` from the
store. -/
theorem hot_key_lost_by_reused_buffer :
    (runOps [Op.set [97] [2] [], Op.set [98] [3] [], Op.write 1 [97], Op.get [97],
        Op.set [99] [4] [[⟨20⟩]]] (NewCache 10 1 "db").1 (DB.fresh [])).2.kv [97] = none ∧
    (runOps [Op.set [97] [2] [], Op.set [98] [3] [], Op.write 1 [97], Op.get [97]]
        (NewCache 10 1 "db").1 (DB.fresh [])).1.keys = [[97], [97]] := by
  decide

/-! ## The five-key scenario -/

/-- C9: ceiling 100, `K = 2`, 30 bytes per stored key.  After `Set` of `"a"`,
`"b"`, `"c"`, `"d"` nothing is evicted; after the `Set` of `"e"` exactly `"a"` and
`"b"` are gone from list, lookup map and store, `Get` of each is not-found, and
`"c"`, `"d"`, `"e"` are stored and tracked. -/
theorem five_key_scenario (va vb vc vd ve : Value) :
    (fourKeyScenario va vb vc vd).2.1.keys = [[100], [99], [98], [97]] ∧
    (fiveKeyScenario va vb vc vd ve).1 = Exit.returned none ∧
    (fiveKeyScenario va vb vc vd ve).2.1.keys = [[101], [100], [99]] ∧
    (fiveKeyScenario va vb vc vd ve).2.1.listOfEvictList [97] = none ∧
    (fiveKeyScenario va vb vc vd ve).2.1.listOfEvictList [98] = none ∧
    (fiveKeyScenario va vb vc vd ve).2.2.kv [97] = none ∧
    (fiveKeyScenario va vb vc vd ve).2.2.kv [98] = none ∧
    Get (fiveKeyScenario va vb vc vd ve).2.1 [97] (fiveKeyScenario va vb vc vd ve).2.2
      = ((none, some Error.ErrNotFound), (fiveKeyScenario va vb vc vd ve).2.1) ∧
    Get (fiveKeyScenario va vb vc vd ve).2.1 [98] (fiveKeyScenario va vb vc vd ve).2.2
      = ((none, some Error.ErrNotFound), (fiveKeyScenario va vb vc vd ve).2.1) ∧
    (fiveKeyScenario va vb vc vd ve).2.2.kv [99] = some vc ∧
    (fiveKeyScenario va vb vc vd ve).2.2.kv [100] = some vd ∧
    (fiveKeyScenario va vb vc vd ve).2.2.kv [101] = some ve ∧
    ((fiveKeyScenario va vb vc vd ve).2.1.listOfEvictList [99]).isSome = true ∧
    ((fiveKeyScenario va vb vc vd ve).2.1.listOfEvictList [100]).isSome = true ∧
    ((fiveKeyScenario va vb vc vd ve).2.1.listOfEvictList [101]).isSome = true :=
  ⟨rfl, rfl, rfl, rfl, rfl, rfl, rfl, rfl, rfl, rfl, rfl, rfl, rfl, rfl, rfl⟩

/-! ## A failing delete during eviction -/

theorem evictDelete_fatal (vals : List Key) :
    ∀ db : DB, (∃ k, k ∈ vals ∧ db.deleteErr k ≠ none) →
      ∃ e, (evictDelete vals db).1 = Exit.fatal e := by
  induction vals with
  | nil => intro db ⟨k, hk, _⟩; cases hk
  | cons v rest ih =>
    intro db ⟨k, hk, hfail⟩
    unfold evictDelete
    cases hv : db.deleteErr v with
    | some e => exact ⟨e, by simp only [DB.Delete, hv]⟩
    | none =>
      simp only [DB.Delete, hv]
      apply ih
      rcases List.mem_cons.mp hk with h1 | h1
      · rw [h1, hv] at hfail; exact absurd rfl hfail
      · exact ⟨k, h1, hfail⟩

theorem evictDelete_kv_failing (vals : List Key) (k : Key) :
    ∀ db : DB, db.deleteErr k ≠ none → (evictDelete vals db).2.kv k = db.kv k := by
  induction vals with
  | nil => intro db _; rfl
  | cons v rest ih =>
    intro db hfail
    unfold evictDelete
    cases hv : db.deleteErr v with
    | some e => simp only [DB.Delete, hv]
    | none =>
      simp only [DB.Delete, hv]
      have hkv : k ≠ v := fun h => hfail (h ▸ hv)
      rw [ih { db with kv := Function.update db.kv v none } hfail]
      simp only [Function.update_noteq hkv]

/-- C10 as stated fails: with `b`, `a` tracked, `K = 1` and a store on which the
delete of `"a"` fails, the `Set("c")` that evicts `a` ends the process, `a` is out
of the list and the lookup map while the store still holds it, and `c` was not
written. -/
theorem Set_fatal_without_rollback :
    (Set (touches (NewCache 0 1 "db").1 [[97], [98]]) [99] [3] failingDeleteStore).1
      = Exit.fatal (Error.storeFailure 1) ∧
    (Set (touches (NewCache 0 1 "db").1 [[97], [98]]) [99] [3] failingDeleteStore).2.1.keys
      = [[99], [98]] ∧
    (Set (touches (NewCache 0 1 "db").1 [[97], [98]]) [99] [3]
      failingDeleteStore).2.1.listOfEvictList [97] = none ∧
    (Set (touches (NewCache 0 1 "db").1 [[97], [98]]) [99] [3] failingDeleteStore).2.2.kv [97]
      = some [1] ∧
    (Set (touches (NewCache 0 1 "db").1 [[97], [98]]) [99] [3] failingDeleteStore).2.2.kv [99]
      = none := by
  decide

/-- C10 (amended): when a `Set` triggers an eviction and the store's delete fails
for one of the staged keys, `Set` does not return: the process ends in
`log.Fatal`.  Every staged key whose delete fails is still in the store as it
was, and it is out of the recency list and the lookup map (nothing is rolled
back). -/
theorem Set_eviction_delete_fails (c : Cache) (key : Key) (val : Value) (db : DB)
    (hinv : Inv c) (hsz : getTableSize db > c.MaxSizeInBytes)
    (hfail : ∃ k, k ∈ coldest (afterTouch c key) (evictCount (afterTouch c key)) ∧
      db.deleteErr k ≠ none) :
    (∃ e, (Set c key val db).1 = Exit.fatal e) ∧
    ∀ k, k ∈ coldest (afterTouch c key) (evictCount (afterTouch c key)) →
      db.deleteErr k ≠ none →
        (Set c key val db).2.2.kv k = db.kv k ∧
        k ∉ (Set c key val db).2.1.keys ∧
        (Set c key val db).2.1.listOfEvictList k = none := by
  have hinv2 := inv_afterTouch hinv key
  have hev := evictFromCache_eq (afterTouch c key) db hinv2.addr_nodup
  rw [staged_keys] at hev
  obtain ⟨e, he⟩ := evictDelete_fatal
    (coldest (afterTouch c key) (evictCount (afterTouch c key))).reverse db
    (by
      obtain ⟨k, hk, hf⟩ := hfail
      exact ⟨k, List.mem_reverse.mpr hk, hf⟩)
  rw [he] at hev
  have hS := Set_over c key val db hsz
  rw [hev] at hS
  simp only at hS
  rw [hS]
  refine ⟨⟨e, rfl⟩, ?_⟩
  intro k hk hf
  refine ⟨evictDelete_kv_failing _ k db hf, ?_, ?_⟩
  · simp only [Cache.keys, keys_take]
    rw [← keys_length]
    exact (mem_keys_split hinv2.keys_nodup _ k).1 hk
  · simp only [List.mem_reverse, hk, if_true]

/-- Witness of C10: the `Set("c")` on `b`, `a` with the failing delete of `"a"`. -/
theorem Set_eviction_delete_fails_witness :
    (∃ e, (Set (touches (NewCache 0 1 "db").1 [[97], [98]]) [99] [3]
      failingDeleteStore).1 = Exit.fatal e) ∧
    (Set (touches (NewCache 0 1 "db").1 [[97], [98]]) [99] [3] failingDeleteStore).2.2.kv [97]
      = failingDeleteStore.kv [97] :=
  have h := Set_eviction_delete_fails (touches (NewCache 0 1 "db").1 [[97], [98]]) [99] [3]
    failingDeleteStore (inv_touches (inv_NewCache 0 1 "db") _) (by decide)
    ⟨[97], by decide, by decide⟩
  ⟨h.1, (h.2 [97] (by decide) (by decide)).1⟩

/-! ## Bulk removal -/

/-- C11: `RemoveSpecificItemsFromCache` does not return normally for any cache,
store and list of keys: every call panics with `"oof"`, so no key is removed by
it. -/
theorem RemoveSpecificItemsFromCache_panics (c : Cache) (db : DB) (items : List Key) :
    RemoveSpecificItemsFromCache c db items = Except.error "oof" ∧
    ∀ r, RemoveSpecificItemsFromCache c db items ≠ Except.ok r := by
  refine ⟨rfl, ?_⟩
  intro r h
  cases h

/-! ## The reported size -/

theorem level_fold (table : List TableInfo) :
    ∀ a : Nat, a < 2 ^ 64 →
      table.foldl (fun size info => (size + info.Size) % 2 ^ 64) a < 2 ^ 64 ∧
      table.foldl (fun size info => (size + info.Size) % 2 ^ 64) a
        = (a + (table.map TableInfo.Size).sum) % 2 ^ 64 := by
  induction table with
  | nil =>
    intro a ha
    refine ⟨ha, ?_⟩
    simp only [List.foldl_nil, List.map_nil, List.sum_nil, Nat.add_zero]
    exact (Nat.mod_eq_of_lt ha).symm
  | cons t rest ih =>
    intro a _
    have hlt : (a + t.Size) % 2 ^ 64 < 2 ^ 64 := Nat.mod_lt _ (by positivity)
    obtain ⟨h1, h2⟩ := ih _ hlt
    refine ⟨h1, ?_⟩
    simp only [List.foldl_cons, List.map_cons, List.sum_cons]
    rw [h2, Nat.mod_add_mod, Nat.add_assoc]

theorem levels_fold (tables : List (List TableInfo)) :
    ∀ a : Nat, a < 2 ^ 64 →
      tables.foldl (fun size table =>
          table.foldl (fun size info => (size + info.Size) % 2 ^ 64) size) a
        = (a + (tables.flatten.map TableInfo.Size).sum) % 2 ^ 64 := by
  induction tables with
  | nil =>
    intro a ha
    simp only [List.foldl_nil, List.flatten_nil, List.map_nil, List.sum_nil, Nat.add_zero]
    exact (Nat.mod_eq_of_lt ha).symm
  | cons t rest ih =>
    intro a ha
    obtain ⟨h1, h2⟩ := level_fold t a ha
    simp only [List.foldl_cons, List.flatten_cons, List.map_append, List.sum_append]
    rw [ih _ h1, h2, Nat.mod_add_mod, Nat.add_assoc]

/-- C16: `getTableSize` is the sum of the `Size` of every table of every level,
modulo `2^64`; it is 0 when there is no level or every level is empty, and it
only depends on the tables, not on how they are split across levels. -/
theorem getTableSize_sum (db : DB) (tables : List (List TableInfo)) (n : Nat) :
    getTableSize db = (db.sstables.flatten.map TableInfo.Size).sum % 2 ^ 64 ∧
    getTableSize (db.withTables []) = 0 ∧
    getTableSize (db.withTables (List.replicate n [])) = 0 ∧
    getTableSize (db.withTables tables) = getTableSize (db.withTables [tables.flatten]) := by
  have h : ∀ d : DB, getTableSize d = (d.sstables.flatten.map TableInfo.Size).sum % 2 ^ 64 := by
    intro d
    unfold getTableSize DB.SSTables
    rw [levels_fold d.sstables 0 (by positivity), Nat.zero_add]
  refine ⟨h db, ?_, ?_, ?_⟩
  · rw [h]; rfl
  · rw [h]
    have : (List.replicate n ([] : List TableInfo)).flatten = [] := by
      induction n with
      | zero => rfl
      | succ m ih => rw [List.replicate_succ, List.flatten_cons, ih]; rfl
    simp only [DB.withTables, this]
    rfl
  · rw [h, h]
    simp [DB.withTables]

/-! ## The size of a batch and the frame of an eviction -/

theorem moveItemToFront_fields (c : Cache) (k : Key) :
    (moveItemToFront c k).MaxSizeInBytes = c.MaxSizeInBytes ∧
    (moveItemToFront c k).RemoveThisManyItemsFromTheCache = c.RemoveThisManyItemsFromTheCache ∧
    (moveItemToFront c k).hitCounter = c.hitCounter ∧
    (moveItemToFront c k).FileLocation = c.FileLocation := by
  unfold moveItemToFront
  split <;> exact ⟨rfl, rfl, rfl, rfl⟩

theorem evictFromCache_hitCounter (c : Cache) (db : DB) :
    (evictFromCache c db).2.1.hitCounter = c.hitCounter := by
  rcases hev : evictStage c.RemoveThisManyItemsFromTheCache c.evictList.reverse 0 [] []
      c.listOfEvictList with ⟨vr, vals, els, m⟩
  simp only [evictFromCache, hev]

theorem Set_hitCounter (c : Cache) (key : Key) (val : Value) (db : DB) :
    (Set c key val db).2.1.hitCounter = wrapInt (c.hitCounter + 1) := by
  have h3 := (moveItemToFront_fields c key).2.2.1
  rw [Set_cache_eq]
  split
  · simp only [afterTouch, h3]
  · rw [evictFromCache_hitCounter]
    simp only [afterTouch, h3]

/-- C15 as stated fails at the largest `int`: with `hitCounter = 2^63 - 1` the
increment wraps and `Set` leaves `hitCounter = -2^63`, not `2^63`. -/
theorem Set_hitCounter_wraps :
    (Set { (NewCache 100 1 "db").1 with hitCounter := 9223372036854775807 } [97] [1]
      (DB.fresh [])).2.1.hitCounter = -9223372036854775808 ∧
    (Set { (NewCache 100 1 "db").1 with hitCounter := 9223372036854775807 } [97] [1]
      (DB.fresh [])).2.1.hitCounter ≠ 9223372036854775807 + 1 := by
  decide

/-- C15 (amended): for every value of `hitCounter`, `Set` adds one to it in Go
`int` arithmetic (exactly one below the largest `int`, a wrap to the smallest
`int` there), and the size check is made: when the reported size is at most
`MaxSizeInBytes` the write is made on the store as it is, when it is greater
`evictFromCache` runs once on the touched cache and the write is made on the
store the eviction leaves; a fatal eviction ends the call before the write. -/
theorem Set_checks_every_write (c : Cache) (key : Key) (val : Value) (db : DB) :
    (Set c key val db).2.1.hitCounter = wrapInt (c.hitCounter + 1) ∧
    (-(2 ^ 63) ≤ c.hitCounter + 1 → c.hitCounter + 1 < 2 ^ 63 →
      (Set c key val db).2.1.hitCounter = c.hitCounter + 1) ∧
    (getTableSize db ≤ c.MaxSizeInBytes →
      Set c key val db
        = (Exit.returned (db.Set key val).1, afterTouch c key, (db.Set key val).2)) ∧
    (getTableSize db > c.MaxSizeInBytes → ∀ c3 db3,
      evictFromCache (afterTouch c key) db = (Exit.returned none, c3, db3) →
      Set c key val db = (Exit.returned (db3.Set key val).1, c3, (db3.Set key val).2)) ∧
    (getTableSize db > c.MaxSizeInBytes → ∀ e c3 db3,
      evictFromCache (afterTouch c key) db = (Exit.fatal e, c3, db3) →
      Set c key val db = (Exit.fatal e, c3, db3)) := by
  refine ⟨Set_hitCounter c key val db, ?_, Set_within c key val db, ?_, ?_⟩
  · intro h1 h2
    rw [Set_hitCounter]
    unfold wrapInt
    omega
  · intro hsz c3 db3 hev
    rw [Set_over c key val db hsz, hev]
  · intro hsz e c3 db3 hev
    rw [Set_over c key val db hsz, hev]

/-- Witness of C15: the third `Set` of a run, over the ceiling, with `K = 1`. -/
theorem Set_checks_every_write_witness :
    (Set (Set (Set (NewCache 0 1 "db").1 [97] [1] (DB.fresh [])).2.1 [98] [2]
      (DB.fresh [])).2.1 [99] [3] (DB.fresh [[⟨5⟩]])).2.1.hitCounter = 2 + 1 ∧
    (Set (Set (Set (NewCache 0 1 "db").1 [97] [1] (DB.fresh [])).2.1 [98] [2]
      (DB.fresh [])).2.1 [99] [3] (DB.fresh [[⟨5⟩]])).2.1.keys = [[99], [98]] :=
  have h := Set_checks_every_write
    (Set (Set (NewCache 0 1 "db").1 [97] [1] (DB.fresh [])).2.1 [98] [2] (DB.fresh [])).2.1
    [99] [3] (DB.fresh [[⟨5⟩]])
  ⟨h.2.1 (by decide) (by decide), by decide⟩

/-! ## Tracked keys are stored -/

theorem Get_tracked_stored {c : Cache} {db : DB} (hinv : Inv c)
    (hst : ∀ x, x ∈ c.keys → db.kv x ≠ none) (k : Key) :
    ∀ x, x ∈ (Get c k db).2.keys → db.kv x ≠ none := by
  intro x hx
  unfold Get DB.Get at hx
  cases hg : db.getErr k with
  | some e => simp only [hg] at hx; exact hst x hx
  | none =>
    cases hkv : db.kv k with
    | none => simp only [hg, hkv] at hx; exact hst x hx
    | some v =>
      cases hc : db.closeErr k with
      | some e => simp only [hg, hkv, hc] at hx; exact hst x hx
      | none =>
        simp only [hg, hkv, hc] at hx
        rw [keys_moveItemToFront hinv k] at hx
        rcases List.mem_cons.mp hx with h1 | h1
        · rw [h1, hkv]; exact Option.some_ne_none v
        · exact hst x (List.mem_of_mem_filter h1)

theorem Set_tracked_stored {c : Cache} {db : DB} (hinv : Inv c) (hnf : db.NoFaults)
    (hst : ∀ x, x ∈ c.keys → db.kv x ≠ none) (k : Key) (v : Value) :
    ∀ x, x ∈ (Set c k v db).2.1.keys → (Set c k v db).2.2.kv x ≠ none := by
  intro x hx
  obtain ⟨_, _, hk⟩ := Set_noFaults c k v db hnf
  by_cases hxk : x = k
  · rw [hxk, hk]; exact Option.some_ne_none v
  · have hxc : x ∈ c.keys := by
      rcases Set_keys_subset hinv k v db x hx with h1 | h1
      · exact absurd h1 hxk
      · exact h1
    by_cases hsz : getTableSize db ≤ c.MaxSizeInBytes
    · rw [Set_within c k v db hsz]
      simp only [DB.Set, (hnf k).2.2.1, Function.update_noteq hxk]
      exact hst x hxc
    · rw [Set_kv_other hinv k v db hnf x hxk]
      · exact hst x hxc
      · intro hcold
        rw [Set_cache_eq, if_neg hsz,
          evictFromCache_eq _ db (inv_afterTouch hinv k).addr_nodup] at hx
        simp only [Cache.keys, keys_take] at hx
        rw [← keys_length] at hx
        exact (mem_keys_split (inv_afterTouch hinv k).keys_nodup _ x).1 hcold hx

theorem runOps_tracked_stored (ops : List Op) :
    ∀ (c : Cache) (db : DB), (∀ op, op ∈ ops → op.isWrite = false) →
      Inv c → db.NoFaults → (∀ x, x ∈ c.keys → db.kv x ≠ none) →
      Inv (runOps ops c db).1 ∧ (runOps ops c db).2.NoFaults ∧
      ∀ x, x ∈ (runOps ops c db).1.keys → (runOps ops c db).2.kv x ≠ none := by
  induction ops with
  | nil => intro c db _ hinv hnf hst; exact ⟨hinv, hnf, hst⟩
  | cons op rest ih =>
    intro c db hw hinv hnf hst
    have hw' : ∀ op', op' ∈ rest → op'.isWrite = false :=
      fun op' h => hw op' (List.mem_cons_of_mem _ h)
    cases op with
    | get key =>
      rw [runOps]
      exact ih _ db hw' (inv_Get hinv key db) hnf (Get_tracked_stored hinv hst key)
    | set key val tables =>
      have hnf' := NoFaults_withTables hnf tables
      have hst' : ∀ x, x ∈ c.keys → (db.withTables tables).kv x ≠ none := hst
      obtain ⟨h1, h2, _⟩ := Set_noFaults c key val (db.withTables tables) hnf'
      have h3 := inv_Set hinv key val (db.withTables tables)
      have h4 := Set_tracked_stored hinv hnf' hst' key val
      rw [runOps]
      rcases hS : Set c key val (db.withTables tables) with ⟨r, c1, db1⟩
      rw [hS] at h1 h2 h3 h4
      simp only at h1 h2 h3 h4
      subst h1
      exact ih c1 db1 hw' h3 h2 h4
    | write e bytes =>
      have := hw (Op.write e bytes) (List.mem_cons_self _ _)
      simp [Op.isWrite] at this

/-- When the caller writes into no key buffer between the calls: in every state
reached from a new cache and an empty store, on which no operation fails, by a
run of `Get` and `Set` calls that alone modify the store, every key of the
recency list, and every key with a lookup map entry, is present in the store. -/
theorem tracked_stored_without_writes (ops : List Op) (maxSize : Nat) (K : Int) (loc : String)
    (tables : List (List TableInfo)) (k : Key) (hw : ∀ op, op ∈ ops → op.isWrite = false) :
    (k ∈ (runOps ops (NewCache maxSize K loc).1 (DB.fresh tables)).1.keys →
      (runOps ops (NewCache maxSize K loc).1 (DB.fresh tables)).2.kv k ≠ none) ∧
    ((runOps ops (NewCache maxSize K loc).1 (DB.fresh tables)).1.listOfEvictList k ≠ none →
      (runOps ops (NewCache maxSize K loc).1 (DB.fresh tables)).2.kv k ≠ none) := by
  obtain ⟨hinv, _, hst⟩ := runOps_tracked_stored ops (NewCache maxSize K loc).1
    (DB.fresh tables) hw (inv_NewCache maxSize K loc) (fun _ => ⟨rfl, rfl, rfl, rfl⟩)
    (by intro x hx; simp [NewCache, Cache.keys] at hx)
  refine ⟨hst k, ?_⟩
  intro hk
  rw [Option.ne_none_iff_isSome, tracked_iff_mem_keys hinv] at hk
  exact hst k hk

/-- C19: a tracked key need not be stored when a key buffer is used again.  After
`Set` of `"a"` through a buffer, a write of `"b"` into that buffer and `Get` of
`"a"`, on an empty store without failures, the recency list holds `b`, which
the store does not hold; the store holds `a` only. -/
theorem tracked_key_not_stored_after_buffer_write :
    (runOps [Op.set [97] [1] [], Op.write 0 [98], Op.get [97]]
      (NewCache 100 1 "db").1 (DB.fresh [])).1.keys = [[98]] ∧
    (runOps [Op.set [97] [1] [], Op.write 0 [98], Op.get [97]]
      (NewCache 100 1 "db").1 (DB.fresh [])).2.kv [98] = none ∧
    (runOps [Op.set [97] [1] [], Op.write 0 [98], Op.get [97]]
      (NewCache 100 1 "db").1 (DB.fresh [])).2.kv [97] = some [1] := by
  decide

/-! ## The footprint of the store -/

end LruCache
